import Mathlib

/-!
Shallow embedding of the `safem` precision-safe numeric conversion package
(`safemath.go`, `number.go` and the `BigInt` JSON wrapper), together with
proofs about its conversion contracts.

Modelling conventions:

* A Go `*big.Int` is `Option ℤ` (`none` is the nil pointer).
* A Go `big.Float` value is an exact rational number `ℚ`.  Every `big.Float`
  operation in the source produces the correctly rounded result at the
  receiver's precision (rounding mode `ToNearestEven`); we model this with an
  explicit round-to-nearest-even function `roundP` at a precision in bits.
  `SetInt` gives a float of precision `max 64 (BitLen)`, which represents the
  integer exactly; `SetFloat64`/`NewFloat` give precision 53.
* A Go `float64` is `F64`: NaN, ±Inf, or a finite value carried as its exact
  rational value.  Narrowing a rational to binary64 (`big.Float.Float64`,
  machine arithmetic, Go constant conversions) is `f64round`/`f64ofRat`,
  which implements round-to-nearest-even with 53-bit mantissa, subnormals at
  scale 2^(-1074) and overflow beyond 2^1024.
* Functions that can hit a Go runtime fault (nil-pointer dereference, the
  `ErrNaN` raised by `big.Float.SetFloat64`) return an `Option`, with `none`
  for the fault.
-/

set_option maxHeartbeats 1600000

namespace Safem

/-- Accuracy of a rounded conversion, mirroring Go `math/big.Accuracy`
(`Below`, `Exact`, `Above`). -/
inductive Acc where
  | below
  | exact
  | above
deriving DecidableEq, Repr

/-- Round a rational to the nearest integer, ties to even (the rounding done
by `math/big` in mode `ToNearestEven`, and by IEEE-754 binary arithmetic). -/
def rne (q : ℚ) : ℤ :=
  let n := ⌊q⌋
  let r := q - n
  if r < 1/2 then n
  else if 1/2 < r then n + 1
  else if n % 2 = 0 then n else n + 1

/-- Round `q` to the dyadic grid of spacing `2^(-s)` (nearest, ties even). -/
def rndAt (s : ℤ) (q : ℚ) : ℚ := (rne (q * 2 ^ s) : ℚ) * 2 ^ (-s)

/-- Round a positive rational to `p` significant binary digits. -/
def roundPos (p : ℕ) (q : ℚ) : ℚ := rndAt ((p : ℤ) - 1 - Int.log 2 q) q

/-- Round a rational to `p` significant bits: the value a `big.Float` of
precision `p` holds after a correctly rounded operation. -/
def roundP (p : ℕ) (q : ℚ) : ℚ :=
  if q = 0 then 0 else if 0 < q then roundPos p q else -roundPos p (-q)

/-- Binary64 rounding of a positive rational, before the overflow cutoff:
subnormal inputs round on the fixed grid `2^(-1074)`, normal ones to 53
significant bits. -/
def f64pos (q : ℚ) : ℚ :=
  if Int.log 2 q < -1022 then rndAt 1074 q else rndAt (52 - Int.log 2 q) q

/-- Binary64 (float64) rounding of a rational value (no overflow cutoff). -/
def f64round (q : ℚ) : ℚ :=
  if q = 0 then 0 else if 0 < q then f64pos q else -f64pos (-q)

/-- A rational value is exactly representable as a finite float64. -/
def isRep (q : ℚ) : Prop := f64round q = q

/-- A Go `float64`: NaN, an infinity, or a finite value (its exact rational
value). -/
inductive F64 where
  | nan
  | pinf
  | ninf
  | fin (v : ℚ)
deriving DecidableEq, Repr

/-- `big.Float.Float64` narrowing: the nearest float64 together with the
accuracy of the result relative to the exact input.  Overflow yields
(+Inf, Above) / (-Inf, Below), as documented for `Float64`. -/
def f64ofRat (q : ℚ) : F64 × Acc :=
  let r := f64round q
  if (2 ^ 1024 : ℚ) ≤ r then (.pinf, .above)
  else if r ≤ -(2 ^ 1024 : ℚ) then (.ninf, .below)
  else (.fin r, if r < q then .below else if q < r then .above else .exact)

/-- Go `<` on float64 values: any comparison with NaN is false. -/
def f64lt (x y : F64) : Bool :=
  match x, y with
  | .nan, _ => false
  | _, .nan => false
  | .ninf, .ninf => false
  | .ninf, _ => true
  | _, .ninf => false
  | .pinf, _ => false
  | _, .pinf => true
  | .fin a, .fin b => decide (a < b)

/-- `big.Int.BitLen` of a natural number. -/
def bitlen (n : ℕ) : ℕ := if n = 0 then 0 else Nat.log 2 n + 1

/-- The precision `big.Float.SetInt` assigns to a fresh receiver: the larger
of the integer's bit length and 64.  At this precision the integer is
represented exactly. -/
def iprec (i : ℤ) : ℕ := max 64 (bitlen i.natAbs)

/-- `big.Float.Int`: truncation toward zero. -/
def bfTruncInt (q : ℚ) : ℤ := if 0 ≤ q then ⌊q⌋ else ⌈q⌉

/-- `big.Float.Quo` into a receiver of precision `p`: the correctly rounded
quotient. -/
def bfQuo (p : ℕ) (x y : ℚ) : ℚ := roundP p (x / y)

/-- `big.Float.Mul` into a receiver of precision `p`: the correctly rounded
product. -/
def bfMul (p : ℕ) (x y : ℚ) : ℚ := roundP p (x * y)

/-- `big.Float.Sub` into a receiver of precision `p`: the correctly rounded
difference. -/
def bfSub (p : ℕ) (x y : ℚ) : ℚ := roundP p (x - y)

/-- `new(big.Int).Exp(10, y, nil)`: `10^y`, and 1 whenever `y ≤ 0` (as
documented for `big.Int.Exp`). -/
def pow10 (y : ℤ) : ℤ := if y ≤ 0 then 1 else 10 ^ y.toNat

/-- The Go conversion `int64(x)` applied to a finite float64 value: the
fraction is discarded (truncation toward zero); for results outside the
int64 range the Go spec leaves the value implementation-dependent (amd64
produces `math.MinInt64`, modelled here). -/
def i64ofF64 (q : ℚ) : ℤ :=
  if -(2 ^ 63) ≤ bfTruncInt q ∧ bfTruncInt q ≤ 2 ^ 63 - 1 then bfTruncInt q
  else -(2 ^ 63)

/-- The errors the conversion functions return (`errors.New` values in the
source, one constructor per distinct error). -/
inductive Err where
  | invalidInput       -- safemath.go ErrInvalidInput
  | negativeInput      -- safemath.go ErrNegativeInput
  | precisionLoss      -- safemath.go ErrPrecisionLoss
  | weiNil             -- number.go "wei value is nil"
  | weiNegative        -- number.go "negative wei value is invalid"
  | weiTooLarge        -- number.go "wei value too large for precise float64 conversion"
  | weiPrecisionLoss   -- number.go "precision loss during conversion to float64"
  | etherNaNOrInf      -- number.go "invalid ether value: NaN or Inf"
  | etherNegative      -- number.go "negative ether value is invalid"
  | etherPrecisionLoss -- number.go "precision loss during conversion to Wei"
deriving DecidableEq, Repr

/-- `BigInt2BigFloat` (safemath.go): `SetInt` the integer and `Quo` by the
cached `10^decimal` float.  The `Quo` receiver is fresh (precision 0), so the
quotient is rounded to the larger of the two operands' `SetInt` precisions.
A nil input gives the zero float. -/
def BigInt2BigFloat (i : Option ℤ) (decimal : ℕ) : ℚ :=
  match i with
  | none => 0
  | some n =>
      bfQuo (max (iprec n) (iprec (10 ^ decimal))) (n : ℚ) ((10 : ℚ) ^ decimal)

/-- `BigInt2Float` (safemath.go): nil and negative inputs are rejected, then
the decimal-shifted `big.Float` is narrowed to float64 and the conversion
fails iff the accuracy is `Above`. -/
def BigInt2Float (i : Option ℤ) (decimal : ℕ) : Except Err F64 :=
  match i with
  | none => .error .invalidInput
  | some n =>
      if n < 0 then .error .negativeInput
      else
        let fa := f64ofRat (BigInt2BigFloat (some n) decimal)
        if fa.2 = .above then .error .precisionLoss
        else .ok fa.1

/-- The value of the Go literal `1e18` (`big.NewFloat(1e18)`, the package
variable `etherDivisor`, and the float64 divisor of the fast path): `10^18`
needs only 60 mantissa bits, so the literal is exactly representable. -/
def oneE18 : ℚ := 10 ^ 18

/-- `WeiToEther` (number.go): balanced Wei→Ether conversion.  The `Quo`
receiver is fresh, so its precision is the larger of the `SetInt` precision
of `wei` and the divisor's precision 53, i.e. `iprec wei`. -/
def WeiToEther (wei : Option ℤ) : Except Err F64 :=
  match wei with
  | none => .error .weiNil
  | some n =>
      if n < 0 then .error .weiNegative
      else
        let ea := f64ofRat (bfQuo (iprec n) (n : ℚ) oneE18)
        if ea.2 = .above then .error .weiPrecisionLoss
        else .ok ea.1

/-- `maxSafeWei` (number.go): `2^53 * 10^18`. -/
def maxSafeWei : ℤ := 2 ^ 53 * 10 ^ 18

/-- `maxSafeInt64` (number.go): `int64(9.223372036854775807e18)`.  The
untyped constant is the exact integer 9223372036854775807 = 2^63-1. -/
def maxSafeInt64 : ℤ := 9223372036854775807

/-- The float64 value of the Go literal `1e-17` (not exactly representable;
the constant conversion rounds to the nearest double). -/
def lit1e17inv : ℚ := f64round (1 / 10 ^ 17)

/-- `WeiToEtherOptimized` (number.go): for a non-negative `wei` that fits in
int64 (`IsInt64`, and the always-true `weiInt64 ≤ maxSafeInt64` check), the
fast path computes `float64(weiInt64) / 1e18` in machine arithmetic and
rejects a nonzero result below the literal `1e-17`; otherwise the big.Float
slow path of `WeiToEther` runs. -/
def WeiToEtherOptimized (wei : Option ℤ) : Except Err F64 :=
  match wei with
  | none => .error .weiNil
  | some n =>
      if n < 0 then .error .weiNegative
      else if n ≤ 2 ^ 63 - 1 ∧ n ≤ maxSafeInt64 then
        let r := f64round (f64round (n : ℚ) / oneE18)
        if r ≠ 0 ∧ r < lit1e17inv then .error .weiPrecisionLoss
        else .ok (.fin r)
      else
        let ea := f64ofRat (bfQuo (iprec n) (n : ℚ) oneE18)
        if ea.2 = .above then .error .weiPrecisionLoss
        else .ok ea.1

/-- `WeiToEtherSafe` (number.go): as `WeiToEther`, but any input above
`maxSafeWei` is rejected before the conversion. -/
def WeiToEtherSafe (wei : Option ℤ) : Except Err F64 :=
  match wei with
  | none => .error .weiNil
  | some n =>
      if n < 0 then .error .weiNegative
      else if maxSafeWei < n then .error .weiTooLarge
      else
        let ea := f64ofRat (bfQuo (iprec n) (n : ℚ) oneE18)
        if ea.2 = .above then .error .weiPrecisionLoss
        else .ok ea.1

/-- `EtherToWei` (number.go): reject NaN/±Inf and negative input, multiply by
`1e18` at precision 53 (both operands and the fresh receiver have precision
53), truncate to an integer, and reject when the lost fraction amounts to at
least half a Wei. -/
def EtherToWei (ether : F64) : Except Err ℤ :=
  match ether with
  | .nan => .error .etherNaNOrInf
  | .pinf => .error .etherNaNOrInf
  | .ninf => .error .etherNaNOrInf
  | .fin v =>
      if v < 0 then .error .etherNegative
      else
        let weiFloat := bfMul 53 v oneE18
        let wei := bfTruncInt weiFloat
        let remainder := bfSub (max 53 (iprec wei)) weiFloat (wei : ℚ)
        if remainder ≠ 0 then
          let remainderWei := bfMul (max 53 (iprec wei)) remainder oneE18
          if 1 / 2 ≤ remainderWei then .error .etherPrecisionLoss
          else .ok wei
        else .ok wei

/-- `FloatToBigIntBaseX` (safemath.go).  Negative input (including -Inf, for
which `val < 0` holds) returns the zero integer.  `big.Float.SetFloat64`
raises `ErrNaN` on NaN, modelled as `none`.  On +Inf, `Float.Int` returns
nil without touching the result integer, so zero is returned, and the
subsequent deviation check only logs.  Otherwise the product with `10^y` is
rounded at the receiver's precision 53 and truncated; the reconversion
deviation check never changes the result. -/
def FloatToBigIntBaseX (val : F64) (y : ℤ) : Option ℤ :=
  if f64lt val (.fin 0) then some 0
  else
    match val with
    | .nan => none
    | .pinf => some 0
    | .ninf => some 0
    | .fin v => some (bfTruncInt (bfMul 53 v ((pow10 y : ℤ) : ℚ)))

/-- `ProcessFloatToDecimalAdjustment` (safemath.go): same conversion as
`FloatToBigIntBaseX` without the deviation check (and with the exponent
passed first). -/
def ProcessFloatToDecimalAdjustment (decimal64b : ℤ) (state_amt : F64) : Option ℤ :=
  if f64lt state_amt (.fin 0) then some 0
  else
    match state_amt with
    | .nan => none
    | .pinf => some 0
    | .ninf => some 0
    | .fin v => some (bfTruncInt (bfMul 53 v ((pow10 decimal64b : ℤ) : ℚ)))

/-- The pristine key set of the package-level `pow10Cache`: bases 14 and 18
are pre-populated at initialization. -/
def initCache : List ℤ := [14, 18]

/-- `BigIntBaseX` (safemath.go), with the key set of the package-level
`pow10Cache` passed explicitly (cached values are always `10^y`, so only the
key set matters).  The fast-path guard reads `pow10Cache[y]` without a miss
check; for an uncached `y ≤ 14` the entry is a nil `*big.Int` and
`.Int64()` dereferences it — a runtime fault, modelled as `none`.  On the
fast path both `f` and `float64(k)` are machine doubles, so the guard
comparison and the product round at 53 bits. -/
def BigIntBaseX (cache : List ℤ) (f : F64) (y : ℤ) : Option ℤ :=
  if f64lt f (.fin 0) then some 0
  else if y ≤ 14 then
    if cache.contains y then
      let k := pow10 y
      match f with
      | .fin v =>
          if v < f64round ((2 ^ 63 : ℚ) / f64round ((k : ℤ) : ℚ)) then
            some (i64ofF64 (f64round (v * f64round ((k : ℤ) : ℚ))))
          else FloatToBigIntBaseX f y
      | _ => FloatToBigIntBaseX f y
    else none
  else FloatToBigIntBaseX f y

/-- `UnBaseX` (safemath.go): zero for nil or negative input, otherwise the
Euclidean division by `10^y` (`big.Int.Div`, which floors for a positive
divisor). -/
def UnBaseX (f : Option ℤ) (y : ℤ) : ℤ :=
  match f with
  | none => 0
  | some n => if n < 0 then 0 else n / pow10 y

/-- Left-pad a digit list with zeros to width `w`. -/
def padZeros (s : List Char) (w : ℕ) : List Char :=
  List.replicate (w - s.length) '0' ++ s

/-- `big.Float.Text('f', d)` for a nonnegative value and a requested digit
count `d ≥ 0`: the value rounded to `d` decimals (nearest, ties even),
written as `<int>.<frac>` (no decimal point when `d = 0`).  For a negative
requested count `Text` emits the shortest uniquely reparsing form; that
branch is outside the spec's scope (the formatter clamps but does not
reject negative counts) and is rendered here like `d = 0`. -/
def fmtFixed (q : ℚ) (d : ℕ) : String :=
  let m := rne (q * 10 ^ d)
  let ip := (m / (10 ^ d : ℤ)).toNat
  let fp := (m % (10 ^ d : ℤ)).toNat
  if d = 0 then String.mk (Nat.toDigits 10 ip)
  else
    String.mk (Nat.toDigits 10 ip) ++ "." ++ String.mk (padZeros (Nat.toDigits 10 fp) d)

/-- The trailing cleanup of `UnBaseXFloatString`: `strings.TrimRight(str,
"0")` when the string contains a point, re-appending a single `0` when the
whole fraction was stripped. -/
def cleanupFrac (s : String) : String :=
  if s.contains '.' then
    let t := s.dropRightWhile (· = '0')
    if t.endsWith (".") then t ++ "0" else t
  else s

/-- `UnBaseXFloatString` (safemath.go): `"0"` for nil or negative input;
the requested digit count is clamped to 100; the `Quo` receiver is the
`SetInt` float of `f`, so the quotient rounds at that receiver's precision
`iprec f`. -/
def UnBaseXFloatString (f : Option ℤ) (y : ℤ) (show_dec : ℤ) : String :=
  match f with
  | none => "0"
  | some n =>
      if n < 0 then "0"
      else
        let sd := if 100 < show_dec then 100 else show_dec
        let flo := bfQuo (iprec n) (n : ℚ) ((pow10 y : ℤ) : ℚ)
        cleanupFrac (fmtFixed flo sd.toNat)

/-- A decoded JSON value, as `json.Unmarshal` into `interface{}` yields it:
a float64 number, a string, null, or anything else (bool/array/object). -/
inductive JSON where
  | num (v : F64)
  | str (s : String)
  | null
  | other
deriving DecidableEq

/-- One digit of `big.Int.SetString` in the given base (0-9, a-z, A-Z). -/
def digitVal (base : ℕ) (c : Char) : Option ℕ :=
  let v :=
    if '0' ≤ c ∧ c ≤ '9' then some (c.toNat - ('0').toNat)
    else if 'a' ≤ c ∧ c ≤ 'z' then some (c.toNat - ('a').toNat + 10)
    else if 'A' ≤ c ∧ c ≤ 'Z' then some (c.toNat - ('A').toNat + 10)
    else none
  match v with
  | some d => if d < base then some d else none
  | none => none

/-- Fold a digit list into a natural number, failing on a non-digit. -/
def parseNatDigits (base : ℕ) : List Char → ℕ → Option ℕ
  | [], acc => some acc
  | c :: cs, acc =>
      match digitVal base c with
      | some d => parseNatDigits base cs (acc * base + d)
      | none => none

/-- `big.Int.SetString(s, base)` for `base` 10 or 16: an optional sign
followed by a nonempty digit string (underscores are rejected for a nonzero
base). -/
def setString (base : ℕ) (cs : List Char) : Option ℤ :=
  let core := fun (l : List Char) (sgn : ℤ) =>
    if l.isEmpty then none
    else (parseNatDigits base l 0).map (fun n => sgn * (n : ℤ))
  match cs with
  | '+' :: rest => core rest 1
  | '-' :: rest => core rest (-1)
  | _ => core cs 1

/-- `strings.Trim(s, "\"")`: strip every leading and trailing double-quote
character. -/
def trimQuote (s : String) : String :=
  String.mk (((s.data.dropWhile (· = '"')).reverse.dropWhile (· = '"')).reverse)

/-- `BigInt.UnmarshalJSON` on a decoded JSON value.  `.error ()` stands for
`strconv.ErrSyntax`; `.ok none` is the distinguished null state.  For a
float64: NaN/±Inf are rejected; an integral value inside the int64 range
(the bounds compare against `float64(MaxInt64) = 2^63` and
`float64(MinInt64) = -2^63`) takes the exact `SetInt64` path; otherwise the
value is formatted by `strconv.FormatFloat(v, 'f', -1, 64)` and re-parsed in
base 10, which succeeds exactly for integral values (a fractional value
formats with a '.' and `SetString` fails).  The reparsed integer is
modelled as the double's exact integer value; the shortest-round-trip form
may zero decimal digits beyond the double's 53-bit precision, a difference
no claim exercises.  For a string: quotes are trimmed, the empty string is
the null state, base-10 parsing is tried first, then `0x`-prefixed base 16. -/
def UnmarshalJSON (j : JSON) : Except Unit (Option ℤ) :=
  match j with
  | .num f =>
      match f with
      | .nan => .error ()
      | .pinf => .error ()
      | .ninf => .error ()
      | .fin v =>
          if v = (bfTruncInt v : ℚ) ∧ v ≤ (2 ^ 63 : ℚ) ∧ -(2 ^ 63 : ℚ) ≤ v then
            .ok (some (bfTruncInt v))
          else if v = (bfTruncInt v : ℚ) then .ok (some (bfTruncInt v))
          else .error ()
  | .str s =>
      let t := trimQuote s
      if t.length = 0 then .ok none
      else
        match setString 10 t.data with
        | some n => .ok (some n)
        | none =>
            if t.startsWith ("0x") then
              match setString 16 (t.drop 2).data with
              | some n => .ok (some n)
              | none => .error ()
            else .error ()
  | .null => .ok none
  | .other => .error ()

/-- `BigInt.MarshalJSON`: the null state marshals to JSON `null`
(`json.Marshal(nil)`), any other value to the base-10 string of the integer
(`json.Marshal(b.String())`). -/
def MarshalJSON (b : Option ℤ) : JSON :=
  match b with
  | none => .null
  | some v => .str (Int.repr v)

/-! ### Properties of round-to-nearest-even -/

theorem rne_def (q : ℚ) : rne q =
    if q - ⌊q⌋ < 1/2 then ⌊q⌋
    else if 1/2 < q - ⌊q⌋ then ⌊q⌋ + 1
    else if ⌊q⌋ % 2 = 0 then ⌊q⌋ else ⌊q⌋ + 1 := rfl

theorem rne_intCast (n : ℤ) : rne (n : ℚ) = n := by
  rw [rne_def]
  norm_num [Int.floor_intCast]

theorem rne_le (q : ℚ) : (rne q : ℚ) ≤ q + 1/2 := by
  rw [rne_def]
  have h1 : (⌊q⌋ : ℚ) ≤ q := Int.floor_le q
  have h2 : q < ⌊q⌋ + 1 := Int.lt_floor_add_one q
  split_ifs with ha hb hc <;> push_cast <;>
    [linarith; linarith; linarith; linarith [not_lt.mp ha]]

theorem le_rne (q : ℚ) : q - 1/2 ≤ (rne q : ℚ) := by
  rw [rne_def]
  have h1 : (⌊q⌋ : ℚ) ≤ q := Int.floor_le q
  have h2 : q < ⌊q⌋ + 1 := Int.lt_floor_add_one q
  split_ifs with ha hb hc <;>
    [linarith; (push_cast; linarith); linarith; (push_cast; linarith)]

theorem rne_mono {a b : ℚ} (h : a ≤ b) : rne a ≤ rne b := by
  by_contra hc
  push_neg at hc
  have h1 : (rne b : ℚ) + 1 ≤ (rne a : ℚ) := by
    exact_mod_cast Int.add_one_le_iff.mpr hc
  have h2 := rne_le a
  have h3 := le_rne b
  have hab : a = b := le_antisymm h (by linarith)
  rw [hab] at hc
  exact lt_irrefl _ hc

theorem int_le_rne {q : ℚ} {n : ℤ} (h : (n : ℚ) ≤ q) : n ≤ rne q := by
  have h1 := le_rne q
  have h2 : ((n - 1 : ℤ) : ℚ) < (rne q : ℚ) := by push_cast; linarith
  have h3 : (n - 1 : ℤ) < rne q := by exact_mod_cast h2
  omega

theorem rne_le_int {q : ℚ} {n : ℤ} (h : q ≤ (n : ℚ)) : rne q ≤ n := by
  have h1 := rne_le q
  have h2 : (rne q : ℚ) < ((n + 1 : ℤ) : ℚ) := by push_cast; linarith
  have h3 : rne q < n + 1 := by exact_mod_cast h2
  omega

theorem rne_eq_of_near {q : ℚ} {n : ℤ} (h1 : (n : ℚ) - 1/2 < q) (h2 : q < (n : ℚ) + 1/2) :
    rne q = n := by
  rcases le_or_lt (n : ℚ) q with hge | hlt
  · have hf : ⌊q⌋ = n := Int.floor_eq_iff.mpr ⟨hge, by push_cast; linarith⟩
    rw [rne_def, hf]
    rw [if_pos (by push_cast; linarith)]
  · have hf : ⌊q⌋ = n - 1 := by
      apply Int.floor_eq_iff.mpr
      constructor
      · push_cast; linarith
      · push_cast; linarith
    rw [rne_def, hf]
    rw [if_neg (by push_cast; linarith), if_pos (by push_cast; linarith)]
    omega

/-! ### Properties of dyadic rounding -/

theorem two_zpow_pos (s : ℤ) : (0:ℚ) < 2 ^ s := zpow_pos (by norm_num) s

theorem two_zpow_mul (a b : ℤ) : (2:ℚ) ^ a * 2 ^ b = 2 ^ (a + b) :=
  (zpow_add₀ (by norm_num) a b).symm

theorem rndAt_int {s : ℤ} {q : ℚ} {m : ℤ} (h : q * 2 ^ s = (m : ℚ)) : rndAt s q = q := by
  rw [rndAt, h, rne_intCast, ← h, mul_assoc, two_zpow_mul]
  simp

theorem rndAt_mono (s : ℤ) {a b : ℚ} (h : a ≤ b) : rndAt s a ≤ rndAt s b := by
  have hp := two_zpow_pos s
  have hp2 := two_zpow_pos (-s)
  have hm := rne_mono (mul_le_mul_of_nonneg_right h hp.le)
  exact mul_le_mul_of_nonneg_right (by exact_mod_cast hm) hp2.le

theorem rndAt_nonneg {s : ℤ} {q : ℚ} (h : 0 ≤ q) : 0 ≤ rndAt s q := by
  have hp := two_zpow_pos s
  have hp2 := two_zpow_pos (-s)
  have h0 : (0:ℤ) ≤ rne (q * 2 ^ s) := int_le_rne (by positivity)
  have : (0:ℚ) ≤ (rne (q * 2 ^ s) : ℚ) := by exact_mod_cast h0
  exact mul_nonneg this hp2.le

theorem rndAt_le (s : ℤ) (q : ℚ) : rndAt s q ≤ q + 2 ^ (-s) / 2 := by
  have hp := two_zpow_pos s
  have hp2 := two_zpow_pos (-s)
  have h1 := rne_le (q * 2 ^ s)
  have h2 : (rne (q * 2 ^ s) : ℚ) * 2 ^ (-s) ≤ (q * 2 ^ s + 1/2) * 2 ^ (-s) :=
    mul_le_mul_of_nonneg_right h1 hp2.le
  calc rndAt s q ≤ (q * 2 ^ s + 1/2) * 2 ^ (-s) := h2
    _ = q * (2 ^ s * 2 ^ (-s)) + 2 ^ (-s) / 2 := by ring
    _ = q + 2 ^ (-s) / 2 := by rw [two_zpow_mul]; simp

theorem le_rndAt (s : ℤ) (q : ℚ) : q - 2 ^ (-s) / 2 ≤ rndAt s q := by
  have hp2 := two_zpow_pos (-s)
  have h1 := le_rne (q * 2 ^ s)
  have h2 : (q * 2 ^ s - 1/2) * 2 ^ (-s) ≤ (rne (q * 2 ^ s) : ℚ) * 2 ^ (-s) :=
    mul_le_mul_of_nonneg_right h1 hp2.le
  calc q - 2 ^ (-s) / 2 = q * (2 ^ s * 2 ^ (-s)) - 2 ^ (-s) / 2 := by rw [two_zpow_mul]; simp
    _ = (q * 2 ^ s - 1/2) * 2 ^ (-s) := by ring
    _ ≤ rndAt s q := h2

theorem flog_eval {q : ℚ} {e : ℤ} (h0 : 0 < q) (h1 : 2 ^ e ≤ q) (h2 : q < 2 ^ (e + 1)) :
    Int.log 2 q = e := by
  have hle : e ≤ Int.log 2 q := (Int.zpow_le_iff_le_log (by norm_num) h0).mp (by exact_mod_cast h1)
  have hlt : Int.log 2 q < e + 1 :=
    (Int.lt_zpow_iff_log_lt (by norm_num) h0).mp (by exact_mod_cast h2)
  omega

theorem rndAt_ge_of_int_le {s : ℤ} {q : ℚ} {n : ℤ} (h : (n : ℚ) ≤ q * 2 ^ s) :
    (n : ℚ) * 2 ^ (-s) ≤ rndAt s q := by
  have h2 := int_le_rne h
  exact mul_le_mul_of_nonneg_right (by exact_mod_cast h2) (two_zpow_pos (-s)).le

theorem rndAt_le_of_le_int {s : ℤ} {q : ℚ} {n : ℤ} (h : q * 2 ^ s ≤ (n : ℚ)) :
    rndAt s q ≤ (n : ℚ) * 2 ^ (-s) := by
  have h2 := rne_le_int h
  exact mul_le_mul_of_nonneg_right (by exact_mod_cast h2) (two_zpow_pos (-s)).le

theorem rndAt_zpow_le {s a : ℤ} {q : ℚ} (ha : 0 ≤ a + s) (h : (2:ℚ) ^ a ≤ q) :
    (2:ℚ) ^ a ≤ rndAt s q := by
  have hx : ((2 ^ (a + s).toNat : ℤ) : ℚ) ≤ q * 2 ^ s := by
    push_cast
    rw [← zpow_natCast (2:ℚ), Int.toNat_of_nonneg ha, ← two_zpow_mul]
    exact mul_le_mul_of_nonneg_right h (two_zpow_pos s).le
  have h2 := rndAt_ge_of_int_le hx
  calc (2:ℚ) ^ a = ((2 ^ (a + s).toNat : ℤ) : ℚ) * 2 ^ (-s) := by
        push_cast
        rw [← zpow_natCast (2:ℚ), Int.toNat_of_nonneg ha, two_zpow_mul]
        congr 1
        omega
    _ ≤ rndAt s q := h2

theorem rndAt_le_zpow {s a : ℤ} {q : ℚ} (ha : 0 ≤ a + s) (h : q ≤ (2:ℚ) ^ a) :
    rndAt s q ≤ (2:ℚ) ^ a := by
  have hx : q * 2 ^ s ≤ ((2 ^ (a + s).toNat : ℤ) : ℚ) := by
    push_cast
    rw [← zpow_natCast (2:ℚ), Int.toNat_of_nonneg ha, ← two_zpow_mul]
    exact mul_le_mul_of_nonneg_right h (two_zpow_pos s).le
  have h2 := rndAt_le_of_le_int hx
  calc rndAt s q ≤ ((2 ^ (a + s).toNat : ℤ) : ℚ) * 2 ^ (-s) := h2
    _ = (2:ℚ) ^ a := by
        push_cast
        rw [← zpow_natCast (2:ℚ), Int.toNat_of_nonneg ha, two_zpow_mul]
        congr 1
        omega

/-! ### Properties of binary64 rounding -/

theorem f64pos_eq_rndAt_normal {q : ℚ} (h : ¬ Int.log 2 q < -1022) :
    f64pos q = rndAt (52 - Int.log 2 q) q := by rw [f64pos, if_neg h]

theorem f64pos_eq_rndAt_sub {q : ℚ} (h : Int.log 2 q < -1022) :
    f64pos q = rndAt 1074 q := by rw [f64pos, if_pos h]

theorem roundPos_eq_rndAt (p : ℕ) (q : ℚ) :
    roundPos p q = rndAt ((p : ℤ) - 1 - Int.log 2 q) q := rfl

theorem f64pos_eq_roundPos {q : ℚ} (h : ¬ Int.log 2 q < -1022) :
    f64pos q = roundPos 53 q := by
  rw [f64pos_eq_rndAt_normal h, roundPos_eq_rndAt]
  congr 1

theorem f64round_of_pos {q : ℚ} (h : 0 < q) : f64round q = f64pos q := by
  rw [f64round, if_neg h.ne', if_pos h]

theorem f64round_zero : f64round 0 = 0 := by rw [f64round]; simp

theorem roundP_of_pos (p : ℕ) {q : ℚ} (h : 0 < q) : roundP p q = roundPos p q := by
  rw [roundP, if_neg h.ne', if_pos h]

theorem roundP_zero (p : ℕ) : roundP p 0 = 0 := by rw [roundP]; simp

theorem f64pos_nonneg {q : ℚ} (h : 0 ≤ q) : 0 ≤ f64pos q := by
  rw [f64pos]
  split_ifs <;> exact rndAt_nonneg h

theorem f64round_nonneg {q : ℚ} (h : 0 ≤ q) : 0 ≤ f64round q := by
  rw [f64round]
  split_ifs with h1 h2
  · exact le_refl 0
  · exact f64pos_nonneg h
  · exact absurd (lt_of_le_of_ne h (Ne.symm h1)) h2

theorem f64pos_lower {q : ℚ} (h0 : 0 < q) (hn : ¬ Int.log 2 q < -1022) :
    (2:ℚ) ^ Int.log 2 q ≤ f64pos q := by
  rw [f64pos_eq_rndAt_normal hn]
  exact rndAt_zpow_le (by omega) (Int.zpow_log_le_self (by norm_num) h0)

theorem f64pos_upper {q : ℚ} (h0 : 0 < q) (hn : ¬ Int.log 2 q < -1022) :
    f64pos q ≤ (2:ℚ) ^ (Int.log 2 q + 1) := by
  rw [f64pos_eq_rndAt_normal hn]
  exact rndAt_le_zpow (by omega) (Int.lt_zpow_succ_log_self (by norm_num) q).le

theorem f64pos_pos {q : ℚ} (h0 : 0 < q) (hn : ¬ Int.log 2 q < -1022) : 0 < f64pos q :=
  lt_of_lt_of_le (two_zpow_pos _) (f64pos_lower h0 hn)

theorem f64pos_le_add {q : ℚ} (hn : ¬ Int.log 2 q < -1022) :
    f64pos q ≤ q + 2 ^ (Int.log 2 q - 53) := by
  rw [f64pos_eq_rndAt_normal hn]
  have h1 := rndAt_le (52 - Int.log 2 q) q
  have h2 : (2:ℚ) ^ (-(52 - Int.log 2 q)) / 2 = 2 ^ (Int.log 2 q - 53) := by
    rw [show -(52 - Int.log 2 q) = (Int.log 2 q - 53) + 1 by omega, ← two_zpow_mul]
    norm_num
  rw [h2] at h1
  exact h1

theorem f64pos_mono {a b : ℚ} (h0 : 0 < a) (hab : a ≤ b) : f64pos a ≤ f64pos b := by
  have h0b : 0 < b := lt_of_lt_of_le h0 hab
  have hE : Int.log 2 a ≤ Int.log 2 b := Int.log_mono_right h0 hab
  by_cases hsa : Int.log 2 a < -1022
  · by_cases hsb : Int.log 2 b < -1022
    · rw [f64pos_eq_rndAt_sub hsa, f64pos_eq_rndAt_sub hsb]
      exact rndAt_mono _ hab
    · rw [f64pos_eq_rndAt_sub hsa]
      have h1 : rndAt 1074 a ≤ (2:ℚ) ^ (-1022 : ℤ) := by
        apply rndAt_le_zpow (by norm_num)
        have hlt : a < (2:ℚ) ^ (-1022 : ℤ) := by
          calc a < (2:ℚ) ^ (Int.log 2 a + 1) := Int.lt_zpow_succ_log_self (by norm_num) a
            _ ≤ (2:ℚ) ^ (-1022 : ℤ) := zpow_le_zpow_right₀ (by norm_num) (by omega)
        exact hlt.le
      have h2 : (2:ℚ) ^ (-1022 : ℤ) ≤ f64pos b := by
        calc (2:ℚ) ^ (-1022 : ℤ) ≤ (2:ℚ) ^ Int.log 2 b :=
              zpow_le_zpow_right₀ (by norm_num) (by omega)
          _ ≤ f64pos b := f64pos_lower h0b hsb
      linarith
  · have hsb : ¬ Int.log 2 b < -1022 := by omega
    by_cases heq : Int.log 2 a = Int.log 2 b
    · rw [f64pos_eq_rndAt_normal hsa, f64pos_eq_rndAt_normal hsb, ← heq]
      exact rndAt_mono _ hab
    · have hlt : Int.log 2 a < Int.log 2 b := lt_of_le_of_ne hE heq
      have h1 : f64pos a ≤ (2:ℚ) ^ (Int.log 2 a + 1) := f64pos_upper h0 hsa
      have h2 : (2:ℚ) ^ (Int.log 2 a + 1) ≤ (2:ℚ) ^ Int.log 2 b :=
        zpow_le_zpow_right₀ (by norm_num) (by omega)
      have h3 := f64pos_lower h0b hsb
      linarith

theorem f64round_mono {a b : ℚ} (h0 : 0 ≤ a) (hab : a ≤ b) : f64round a ≤ f64round b := by
  rcases lt_or_eq_of_le h0 with ha | ha
  · have hb : 0 < b := lt_of_lt_of_le ha hab
    rw [f64round_of_pos ha, f64round_of_pos hb]
    exact f64pos_mono ha hab
  · rw [← ha, f64round_zero]
    exact f64round_nonneg (le_trans h0 hab)

/-! ### Exactly representable values -/

theorem log_nonneg_of_one_le {q : ℚ} (h : 1 ≤ q) : 0 ≤ Int.log 2 q := by
  have h0 : (0:ℚ) < q := lt_of_lt_of_le one_pos h
  exact (Int.zpow_le_iff_le_log (by norm_num) h0).mp (by simpa using h)

theorem flog_two_zpow (z : ℤ) : Int.log 2 ((2:ℚ) ^ z) = z := by
  apply flog_eval (two_zpow_pos z) (le_refl _)
  have h := two_zpow_pos z
  have h2 : (2:ℚ) ^ (z + 1) = 2 ^ z * 2 := by
    rw [zpow_add₀ (by norm_num : (2:ℚ) ≠ 0) z 1, zpow_one]
  linarith

theorem roundPos_intCast {p : ℕ} {n : ℤ} (hp : 1 ≤ p) (h0 : 0 < n) (h : n ≤ 2 ^ p) :
    roundPos p (n : ℚ) = n := by
  have hq0 : (0:ℚ) < n := by exact_mod_cast h0
  set e := Int.log 2 (n : ℚ) with he
  have he0 : 0 ≤ e := log_nonneg_of_one_le (by exact_mod_cast h0)
  have hep : e ≤ (p : ℤ) := by
    have h1 : (n : ℚ) ≤ (2:ℚ) ^ ((p : ℕ) : ℤ) := by
      rw [zpow_natCast]
      exact_mod_cast h
    have h2 := @Int.log_mono_right ℚ _ _ 2 _ _ hq0 h1
    rw [flog_two_zpow] at h2
    rw [he]
    exact h2
  rw [roundPos_eq_rndAt, ← he]
  rcases lt_or_eq_of_le hep with hlt | heq
  · -- exponent s = p - 1 - e ≥ 0, so n * 2^s is an integer
    have hs : (0:ℤ) ≤ (p : ℤ) - 1 - e := by omega
    have h5 : (n:ℚ) * 2 ^ ((p:ℤ) - 1 - e) = ((n * 2 ^ ((p:ℤ) - 1 - e).toNat : ℤ) : ℚ) := by
      push_cast
      rw [← zpow_natCast (2:ℚ), Int.toNat_of_nonneg hs]
    exact rndAt_int h5
  · -- e = p forces n = 2^p, and 2^p * 2^(-1) = 2^(p-1) is an integer
    have h2 : (2:ℚ) ^ e ≤ (n : ℚ) := by
      rw [he]
      exact Int.zpow_log_le_self (by norm_num) hq0
    have hn : n = 2 ^ p := by
      have h3 : (2:ℚ) ^ (p : ℕ) ≤ (n : ℚ) := by
        rw [← zpow_natCast (2:ℚ) p, ← heq]
        exact h2
      have h4 : (2 ^ p : ℤ) ≤ n := by exact_mod_cast h3
      omega
    have hs2 : (p : ℤ) - 1 - e = -1 := by omega
    rw [hs2]
    have h6 : (n:ℚ) * 2 ^ (-1:ℤ) = ((2 ^ (p - 1) : ℤ) : ℚ) := by
      rw [hn]
      push_cast
      rw [← zpow_natCast (2:ℚ) p, ← zpow_natCast (2:ℚ) (p - 1), two_zpow_mul]
      congr 1
      omega
    exact rndAt_int h6

theorem roundP_intCast {p : ℕ} {n : ℤ} (hp : 1 ≤ p) (h0 : 0 ≤ n) (h : n ≤ 2 ^ p) :
    roundP p (n : ℚ) = n := by
  rcases lt_or_eq_of_le h0 with hpos | hzero
  · rw [roundP_of_pos p (by exact_mod_cast hpos)]
    exact roundPos_intCast hp hpos h
  · rw [← hzero]
    simpa using roundP_zero p

theorem f64round_intCast {n : ℤ} (h0 : 0 ≤ n) (h : n ≤ 2 ^ 53) : f64round (n : ℚ) = n := by
  rcases lt_or_eq_of_le h0 with hpos | hzero
  · have hq0 : (0:ℚ) < n := by exact_mod_cast hpos
    have hn : ¬ Int.log 2 (n : ℚ) < -1022 := by
      have := log_nonneg_of_one_le (by exact_mod_cast hpos : (1:ℚ) ≤ n)
      omega
    rw [f64round_of_pos hq0, f64pos_eq_roundPos hn]
    exact roundPos_intCast (by norm_num) hpos h
  · rw [← hzero]
    simpa using f64round_zero

theorem isRep_intCast {n : ℤ} (h0 : 0 ≤ n) (h : n ≤ 2 ^ 53) : isRep (n : ℚ) :=
  f64round_intCast h0 h

theorem roundP53_of_isRep {q : ℚ} (h0 : 0 ≤ q) (h : isRep q) : roundP 53 q = q := by
  rcases lt_or_eq_of_le h0 with hpos | hzero
  · rw [roundP_of_pos 53 hpos]
    by_cases hn : Int.log 2 q < -1022
    · -- subnormal: q is an integer multiple of 2^(-1074), so rounding to 53
      -- significant bits is exact as well
      have hq : (rne (q * 2 ^ (1074:ℤ)) : ℚ) * 2 ^ (-1074:ℤ) = q := by
        have h2 := h
        rw [isRep, f64round_of_pos hpos, f64pos_eq_rndAt_sub hn, rndAt] at h2
        exact h2
      rw [roundPos_eq_rndAt]
      rw [show ((53:ℕ):ℤ) - 1 - Int.log 2 q = 52 - Int.log 2 q from by omega]
      have hs : (0:ℤ) ≤ 52 - Int.log 2 q - 1074 := by omega
      have h5 : q * 2 ^ (52 - Int.log 2 q) =
          ((rne (q * 2 ^ (1074:ℤ)) * 2 ^ (52 - Int.log 2 q - 1074).toNat : ℤ) : ℚ) := by
        push_cast
        rw [← zpow_natCast (2:ℚ), Int.toNat_of_nonneg hs]
        nth_rewrite 1 [← hq]
        rw [mul_assoc, two_zpow_mul]
        congr 2
        omega
      exact rndAt_int h5
    · rw [← f64pos_eq_roundPos hn, ← f64round_of_pos hpos]
      exact h
  · rw [← hzero]
    exact roundP_zero 53

theorem rep_grid {f : ℚ} {m t : ℤ} (hrep : isRep f) (hm : 2 ^ 52 ≤ m) (hm2 : m + 1 ≤ 2 ^ 53)
    (ht : -1022 ≤ t + 52)
    (h1 : (m : ℚ) * 2 ^ t ≤ f) (h2 : f < ((m : ℚ) + 1) * 2 ^ t) : f = (m : ℚ) * 2 ^ t := by
  have hmq : (4503599627370496 : ℚ) ≤ (m : ℚ) := by exact_mod_cast hm
  have hm2q : (m : ℚ) + 1 ≤ (9007199254740992 : ℚ) := by exact_mod_cast hm2
  have hf0 : 0 < f := by
    have : (0:ℚ) < (m:ℚ) * 2 ^ t := by positivity
    linarith
  have hE : Int.log 2 f = t + 52 := by
    apply flog_eval hf0
    · calc (2:ℚ) ^ (t + 52) = 2 ^ (52:ℤ) * 2 ^ t := by rw [two_zpow_mul]; congr 1; omega
        _ ≤ (m:ℚ) * 2 ^ t := by
            apply mul_le_mul_of_nonneg_right _ (two_zpow_pos t).le
            calc (2:ℚ) ^ (52:ℤ) = 4503599627370496 := by norm_num
              _ ≤ (m:ℚ) := hmq
        _ ≤ f := h1
    · calc f < ((m:ℚ) + 1) * 2 ^ t := h2
        _ ≤ (2:ℚ) ^ (53:ℤ) * 2 ^ t := by
            apply mul_le_mul_of_nonneg_right _ (two_zpow_pos t).le
            calc (m:ℚ) + 1 ≤ 9007199254740992 := hm2q
              _ = (2:ℚ) ^ (53:ℤ) := by norm_num
        _ = (2:ℚ) ^ (t + 52 + 1) := by rw [two_zpow_mul]; congr 1; omega
  have hrep2 : (rne (f * 2 ^ (-t)) : ℚ) * 2 ^ t = f := by
    have h3 := hrep
    rw [isRep, f64round_of_pos hf0, f64pos_eq_rndAt_normal (by omega), hE,
      show (52 : ℤ) - (t + 52) = -t by omega, rndAt, neg_neg] at h3
    exact h3
  have hl : (m : ℚ) ≤ f * 2 ^ (-t) := by
    have := mul_le_mul_of_nonneg_right h1 (two_zpow_pos (-t)).le
    rw [mul_assoc, two_zpow_mul] at this
    simpa using this
  have hu : f * 2 ^ (-t) < (m : ℚ) + 1 := by
    have := mul_lt_mul_of_pos_right h2 (two_zpow_pos (-t))
    rw [mul_assoc, two_zpow_mul] at this
    simpa using this
  have hge : m ≤ rne (f * 2 ^ (-t)) := int_le_rne hl
  have hle2 : rne (f * 2 ^ (-t)) ≤ m + 1 := by
    apply rne_le_int
    push_cast
    exact hu.le
  rcases lt_or_eq_of_le hle2 with hlt3 | heq
  · have : rne (f * 2 ^ (-t)) = m := by omega
    rw [← hrep2, this]
  · exfalso
    rw [← hrep2, heq] at h2
    push_cast at h2
    exact lt_irrefl _ h2

theorem bfTruncInt_intCast (n : ℤ) : bfTruncInt ((n : ℤ) : ℚ) = n := by
  rw [bfTruncInt]
  split_ifs <;> simp

theorem bfTruncInt_of_lt_one {v : ℚ} (h0 : 0 ≤ v) (h1 : v < 1) : bfTruncInt v = 0 := by
  rw [bfTruncInt, if_pos h0]
  exact Int.floor_eq_zero_iff.mpr ⟨h0, h1⟩

theorem roundP_nonneg {p : ℕ} {q : ℚ} (h : 0 ≤ q) : 0 ≤ roundP p q := by
  rcases lt_or_eq_of_le h with hpos | hzero
  · rw [roundP_of_pos p hpos, roundPos_eq_rndAt]
    exact rndAt_nonneg h
  · rw [← hzero, roundP_zero]

theorem i64ofF64_of_range {v : ℚ} (h0 : 0 ≤ v) (h1 : v < 2 ^ 63) :
    i64ofF64 v = bfTruncInt v := by
  rw [i64ofF64, if_pos]
  constructor
  · rw [bfTruncInt, if_pos h0]
    have := Int.floor_nonneg.mpr h0
    omega
  · rw [bfTruncInt, if_pos h0]
    have h2 : (⌊v⌋ : ℚ) < 2 ^ 63 := lt_of_le_of_lt (Int.floor_le v) h1
    have h3 : ⌊v⌋ < (2 : ℤ) ^ 63 := by exact_mod_cast h2
    omega

theorem rep_le_grid {f : ℚ} {m t : ℤ} (hrep : isRep f) (hm : 2 ^ 52 ≤ m)
    (hm2 : m + 1 ≤ 2 ^ 53) (ht : -1022 ≤ t + 52)
    (h2 : f < ((m : ℚ) + 1) * 2 ^ t) : f ≤ (m : ℚ) * 2 ^ t := by
  rcases le_or_lt f ((m : ℚ) * 2 ^ t) with h | h
  · exact h
  · rw [rep_grid hrep hm hm2 ht h.le h2]

/-- On `[0, 2^63 - 2^9)`, Go's `int64` conversion of the machine-rounded
value agrees with truncating the 53-bit `big.Float` rounding: in the normal
range the two roundings coincide, and in the subnormal range both values
truncate to zero. -/
theorem fast_eq_slow_trunc {q : ℚ} (h0 : 0 ≤ q) (hq : q < 2 ^ 63 - 2 ^ 9) :
    i64ofF64 (f64round q) = bfTruncInt (roundP 53 q) := by
  rcases lt_or_eq_of_le h0 with hpos | hzero
  swap
  · rw [← hzero, f64round_zero, roundP_zero]
    norm_num [i64ofF64, bfTruncInt]
  by_cases hn : Int.log 2 q < -1022
  · -- subnormal range: both sides truncate to 0
    have hE1 : q < (2:ℚ) ^ (-1022 : ℤ) := by
      calc q < (2:ℚ) ^ (Int.log 2 q + 1) := Int.lt_zpow_succ_log_self (by norm_num) q
        _ ≤ (2:ℚ) ^ (-1022 : ℤ) := zpow_le_zpow_right₀ (by norm_num) (by omega)
    have hsmall : (2:ℚ) ^ (-1022 : ℤ) < 1 := by norm_num
    have hv1 : f64round q = rndAt 1074 q := by
      rw [f64round_of_pos hpos, f64pos_eq_rndAt_sub hn]
    have hv1b : 0 ≤ rndAt 1074 q := rndAt_nonneg h0
    have hv1c : rndAt 1074 q < 1 := by
      have h2 := rndAt_le_zpow (by norm_num : (0:ℤ) ≤ -1022 + 1074) hE1.le
      linarith
    have hv2 : roundP 53 q = rndAt (52 - Int.log 2 q) q := by
      rw [roundP_of_pos 53 hpos, roundPos_eq_rndAt,
        show ((53:ℕ):ℤ) - 1 - Int.log 2 q = 52 - Int.log 2 q from by push_cast; ring]
    have hv2b : 0 ≤ rndAt (52 - Int.log 2 q) q := rndAt_nonneg h0
    have hv2c : rndAt (52 - Int.log 2 q) q < 1 := by
      have h2 := rndAt_le_zpow
        (show (0:ℤ) ≤ (Int.log 2 q + 1) + (52 - Int.log 2 q) from by omega)
        (Int.lt_zpow_succ_log_self (by norm_num) q).le
      have h3 : (2:ℚ) ^ (Int.log 2 q + 1) ≤ 2 ^ (-1022 : ℤ) :=
        zpow_le_zpow_right₀ (by norm_num) (by omega)
      linarith
    rw [hv1, hv2, bfTruncInt_of_lt_one hv2b hv2c]
    rw [i64ofF64_of_range hv1b (by norm_num; linarith), bfTruncInt_of_lt_one hv1b hv1c]
  · -- normal range: machine rounding and 53-bit big.Float rounding coincide
    have hv : f64round q = roundP 53 q := by
      rw [f64round_of_pos hpos, roundP_of_pos 53 hpos, f64pos_eq_roundPos hn]
    have hE : Int.log 2 q < 63 := by
      apply (Int.lt_zpow_iff_log_lt (by norm_num) hpos).mp
      have : q < (2:ℚ) ^ (63:ℤ) := by
        calc q < 2 ^ 63 - 2 ^ 9 := hq
          _ < (2:ℚ) ^ (63:ℤ) := by norm_num
      exact_mod_cast this
    have hupper : roundP 53 q ≤ q + 512 := by
      rw [roundP_of_pos 53 hpos, ← f64pos_eq_roundPos hn]
      have h1 := f64pos_le_add hn
      have h2 : (2:ℚ) ^ (Int.log 2 q - 53) ≤ 2 ^ (9:ℤ) :=
        zpow_le_zpow_right₀ (by norm_num) (by omega)
      have h3 : (2:ℚ) ^ (9:ℤ) = 512 := by norm_num
      linarith
    rw [hv]
    apply i64ofF64_of_range (roundP_nonneg h0)
    have h4 : (2:ℚ) ^ (63:ℕ) = 2 ^ 63 := by norm_num
    have h5 : ((2:ℚ)) ^ (9:ℕ) = 512 := by norm_num
    have h6 : q + 512 < (2:ℚ) ^ (63:ℕ) := by
      rw [h4]
      have : (2:ℚ) ^ (9:ℕ) = 512 := h5
      linarith [hq, this]
    linarith [hupper, h6]

/-- The shared core of the fast/slow agreement of `BigIntBaseX`: if the
fast-path bound is a float64 grid point `(m+1) * 2^t` and the predecessor
grid point times the scale factor stays `2^9` under `2^63`, then for every
representable `f` under the bound the two paths truncate identically. -/
theorem c7_core {f kq : ℚ} {m t : ℤ} (hrep : isRep f) (hf : 0 ≤ f) (hk : 0 < kq)
    (hm : 2 ^ 52 ≤ m) (hm2 : m + 1 ≤ 2 ^ 53) (ht : -1022 ≤ t + 52)
    (hmarg : (m : ℚ) * 2 ^ t * kq < 2 ^ 63 - 2 ^ 9)
    (hlt : f < ((m : ℚ) + 1) * 2 ^ t) :
    i64ofF64 (f64round (f * kq)) = bfTruncInt (roundP 53 (f * kq)) := by
  have hfle : f ≤ (m : ℚ) * 2 ^ t := rep_le_grid hrep hm hm2 ht hlt
  have hq : f * kq ≤ (m : ℚ) * 2 ^ t * kq := mul_le_mul_of_nonneg_right hfle hk.le
  exact fast_eq_slow_trunc (mul_nonneg hf hk.le) (by linarith)

/-! ### Evaluation helpers for concrete roundings -/

theorem rndAt_eval {s : ℤ} {q : ℚ} {n : ℤ} (h : rne (q * 2 ^ s) = n) :
    rndAt s q = (n : ℚ) * 2 ^ (-s) := by rw [rndAt, h]

theorem f64round_eval_pos {q : ℚ} {e n : ℤ} (h0 : 0 < q)
    (h1 : 2 ^ e ≤ q) (h2 : q < 2 ^ (e + 1)) (h3 : -1022 ≤ e)
    (h4 : rne (q * 2 ^ (52 - e)) = n) :
    f64round q = (n : ℚ) * 2 ^ (e - 52) := by
  have hE := flog_eval h0 h1 h2
  rw [f64round_of_pos h0, f64pos_eq_rndAt_normal (by omega), hE, rndAt_eval h4,
    show -(52 - e) = e - 52 from by omega]

theorem roundP_eval_pos {p : ℕ} {q : ℚ} {e n : ℤ} (h0 : 0 < q)
    (h1 : 2 ^ e ≤ q) (h2 : q < 2 ^ (e + 1))
    (h4 : rne (q * 2 ^ ((p : ℤ) - 1 - e)) = n) :
    roundP p q = (n : ℚ) * 2 ^ (e + 1 - p) := by
  have hE := flog_eval h0 h1 h2
  rw [roundP_of_pos p h0, roundPos_eq_rndAt, hE, rndAt_eval h4,
    show -((p:ℤ) - 1 - e) = e + 1 - p from by omega]

theorem f64ofRat_eval {q r : ℚ} (h : f64round q = r) (hr : r < 2 ^ 1024)
    (hr2 : -(2 ^ 1024 : ℚ) < r) :
    f64ofRat q = (.fin r, if r < q then .below else if q < r then .above else .exact) := by
  rw [f64ofRat, h, if_neg (not_le.mpr hr), if_neg (not_le.mpr hr2)]

theorem bitlen_eval {n b : ℕ} (h0 : n ≠ 0) (h1 : 2 ^ b ≤ n) (h2 : n < 2 ^ (b + 1)) :
    bitlen n = b + 1 := by
  rw [bitlen, if_neg h0, Nat.log_eq_of_pow_le_of_lt_pow h1 h2]

theorem iprec_eval {i : ℤ} {n : ℕ} (h : i = (n : ℤ)) : iprec i = max 64 (bitlen n) := by
  rw [iprec, h, Int.natAbs_ofNat]

theorem roundP_eval (p : ℕ) (q : ℚ) (e n : ℤ) (r : ℚ) (h0 : 0 < q)
    (h1 : 2 ^ e ≤ q) (h2 : q < 2 ^ (e + 1))
    (h4 : rne (q * 2 ^ ((p : ℤ) - 1 - e)) = n)
    (h5 : (n : ℚ) * 2 ^ (e + 1 - (p : ℤ)) = r) :
    roundP p q = r := by rw [roundP_eval_pos h0 h1 h2 h4, ← h5]

theorem f64round_eval (q : ℚ) (e n : ℤ) (r : ℚ) (h0 : 0 < q)
    (h1 : 2 ^ e ≤ q) (h2 : q < 2 ^ (e + 1)) (h3 : -1022 ≤ e)
    (h4 : rne (q * 2 ^ (52 - e)) = n) (h5 : (n : ℚ) * 2 ^ (e - 52) = r) :
    f64round q = r := by rw [f64round_eval_pos h0 h1 h2 h3 h4, ← h5]

theorem f64round_two_zpow {e : ℤ} (h3 : -1022 ≤ e) : f64round ((2:ℚ) ^ e) = 2 ^ e := by
  have h0 := two_zpow_pos e
  rw [f64round_of_pos h0, f64pos_eq_rndAt_normal (by rw [flog_two_zpow]; omega), flog_two_zpow]
  apply rndAt_int
    (show (2:ℚ) ^ e * 2 ^ (52 - e) = ((2 ^ 52 : ℤ) : ℚ) from by
      rw [two_zpow_mul, show e + (52 - e) = 52 from by omega]
      norm_num)

theorem f64ofRat_eval_exact {q : ℚ} (h : f64round q = q) (hr : q < 2 ^ 1024)
    (hr2 : -(2 ^ 1024 : ℚ) < q) : f64ofRat q = (.fin q, .exact) := by
  rw [f64ofRat_eval h hr hr2, if_neg (lt_irrefl q), if_neg (lt_irrefl q)]

theorem f64ofRat_eval_above {q r : ℚ} (h : f64round q = r) (hlt : q < r) (hr : r < 2 ^ 1024)
    (hr2 : -(2 ^ 1024 : ℚ) < r) : f64ofRat q = (.fin r, .above) := by
  rw [f64ofRat_eval h hr hr2, if_neg (not_lt.mpr hlt.le), if_pos hlt]

theorem f64ofRat_eval_below {q r : ℚ} (h : f64round q = r) (hlt : r < q) (hr : r < 2 ^ 1024)
    (hr2 : -(2 ^ 1024 : ℚ) < r) : f64ofRat q = (.fin r, .below) := by
  rw [f64ofRat_eval h hr hr2, if_pos hlt]

theorem pow10_eq {y : ℤ} (hy : 0 ≤ y) : pow10 y = 10 ^ y.toNat := by
  rw [pow10]
  split_ifs with h
  · have hy0 : y = 0 := le_antisymm h hy
    simp [hy0]
  · rfl

/-! ### Claim theorems -/

/-- C10: for every non-negative big integer `v` and exponent `y ≥ 0`,
`UnBaseX(v, y)` is the floor of `v / 10^y` (the fractional remainder is
silently discarded: `UnBaseX(1500000000000000000, 18) = 1`), and nil or
negative input yields zero. -/
theorem c10_theorem (n : ℤ) (y : ℤ) (h0 : 0 ≤ n) (hy : 0 ≤ y) :
    UnBaseX (some n) y = ⌊(n : ℚ) / 10 ^ y.toNat⌋
  ∧ UnBaseX none y = 0
  ∧ (∀ m : ℤ, m < 0 → UnBaseX (some m) y = 0)
  ∧ UnBaseX (some 1500000000000000000) 18 = 1 := by
  refine ⟨?_, rfl, ?_, ?_⟩
  · show (if n < 0 then 0 else n / pow10 y) = ⌊(n : ℚ) / 10 ^ y.toNat⌋
    rw [if_neg (not_lt.mpr h0), pow10_eq hy]
    rw [show ((10:ℚ) ^ y.toNat) = (((10 ^ y.toNat : ℕ)) : ℚ) from by push_cast; ring]
    rw [Rat.floor_intCast_div_natCast]
    push_cast
    ring
  · intro m hm
    show (if m < 0 then 0 else m / pow10 y) = 0
    rw [if_pos hm]
  · show (if (1500000000000000000:ℤ) < 0 then 0 else 1500000000000000000 / pow10 18) = 1
    decide

/-- C10 witness: the theorem applied at `v = 1500000000000000000`, `y = 18`. -/
theorem c10_witness :
    (0 ≤ (1500000000000000000 : ℤ)) ∧ (0 ≤ (18 : ℤ)) ∧
    (UnBaseX (some 1500000000000000000) 18 = ⌊((1500000000000000000 : ℤ) : ℚ) / 10 ^ (18:ℤ).toNat⌋
      ∧ UnBaseX none 18 = 0
      ∧ (∀ m : ℤ, m < 0 → UnBaseX (some m) 18 = 0)
      ∧ UnBaseX (some 1500000000000000000) 18 = 1) :=
  ⟨by decide, by decide, c10_theorem 1500000000000000000 18 (by decide) (by decide)⟩

/-- C9: for every scaled integer, exponent, and requested fractional digit
count `d > 100`, the display formatter yields the same string as with 100
digits — the count is clamped to 100. -/
theorem c9_theorem (v : Option ℤ) (e : ℤ) (d : ℤ) (h : 100 < d) :
    UnBaseXFloatString v e d = UnBaseXFloatString v e 100 := by
  match v with
  | none => rfl
  | some n =>
    simp only [UnBaseXFloatString]
    rw [if_pos h, if_neg (lt_irrefl (100:ℤ))]

/-- C9 witness: the theorem applied at `d = 101`. -/
theorem c9_witness :
    (100 : ℤ) < 101 ∧
    UnBaseXFloatString (some 1234567890000000000) 18 101 =
      UnBaseXFloatString (some 1234567890000000000) 18 100 :=
  ⟨by decide, c9_theorem (some 1234567890000000000) 18 101 (by decide)⟩

/-- C8: deserializing the external JSON string `""` yields the null state
with no error; the null state serializes to the external null value — the
constructor `JSON.null`, which is distinct from every `JSON.str`, in
particular from the string "0"; every non-null value serializes as its
base-10 string. -/
theorem c8_theorem :
    UnmarshalJSON (.str ("")) = .ok none
  ∧ MarshalJSON none = .null
  ∧ (∀ v : ℤ, MarshalJSON (some v) = .str (Int.repr v)) := by
  refine ⟨rfl, rfl, fun v => rfl⟩

/-- C6: the float→scaled-integer bridge returns the zero integer for every
negative finite input with no failure signal, and for every non-negative
finite input it returns the truncation of the decimal-float product
`value * 10^exponent` — it is always `some`, never a failure, regardless of
any reconversion deviation (the deviation check in the source only logs). -/
theorem c6_theorem (v : ℚ) (a : ℚ) (y : ℤ) (d : ℤ) :
    (v < 0 → FloatToBigIntBaseX (.fin v) y = some 0)
  ∧ (0 ≤ v → FloatToBigIntBaseX (.fin v) y =
      some (bfTruncInt (bfMul 53 v ((pow10 y : ℤ) : ℚ))))
  ∧ (a < 0 → ProcessFloatToDecimalAdjustment d (.fin a) = some 0)
  ∧ (0 ≤ a → ProcessFloatToDecimalAdjustment d (.fin a) =
      some (bfTruncInt (bfMul 53 a ((pow10 d : ℤ) : ℚ)))) := by
  refine ⟨fun h => ?_, fun h => ?_, fun h => ?_, fun h => ?_⟩
  · simp only [FloatToBigIntBaseX]
    rw [if_pos (by simp [f64lt, h])]
  · simp only [FloatToBigIntBaseX]
    rw [if_neg (by simp [f64lt]; exact h)]
  · simp only [ProcessFloatToDecimalAdjustment]
    rw [if_pos (by simp [f64lt, h])]
  · simp only [ProcessFloatToDecimalAdjustment]
    rw [if_neg (by simp [f64lt]; exact h)]

/-- C6 witness: the theorem applied at `v = -1`, `a = 3/2`, `y = d = 18`. -/
theorem c6_witness :
    ((-1 : ℚ) < 0 ∧ FloatToBigIntBaseX (.fin (-1)) 18 = some 0)
  ∧ ((0:ℚ) ≤ 3/2 ∧ ProcessFloatToDecimalAdjustment 18 (.fin (3/2)) =
      some (bfTruncInt (bfMul 53 (3/2) ((pow10 18 : ℤ) : ℚ)))) :=
  ⟨⟨by norm_num, (c6_theorem (-1) (3/2) 18 18).1 (by norm_num)⟩,
   ⟨by norm_num, (c6_theorem (-1) (3/2) 18 18).2.2.2 (by norm_num)⟩⟩

/-- C4: `WeiToEtherSafe` rejects every input above `2^53 * 10^18` with the
"too large" error before any conversion, and for every non-negative non-null
input at or below the bound it performs the conversion through the
decimal-float bridge (quotient at the `SetInt` precision, narrowed to
float64, rejected exactly on accuracy `Above`). -/
theorem c4_theorem (i : ℤ) (h0 : 0 ≤ i) :
    (2 ^ 53 * 10 ^ 18 < i → WeiToEtherSafe (some i) = .error .weiTooLarge)
  ∧ (i ≤ 2 ^ 53 * 10 ^ 18 →
      WeiToEtherSafe (some i) =
        (if (f64ofRat (bfQuo (iprec i) (i : ℚ) oneE18)).2 = .above
         then .error .weiPrecisionLoss
         else .ok (f64ofRat (bfQuo (iprec i) (i : ℚ) oneE18)).1)) := by
  constructor <;> intro h
  · simp only [WeiToEtherSafe]
    rw [if_neg (not_lt.mpr h0), if_pos (show maxSafeWei < i from h)]
  · simp only [WeiToEtherSafe]
    rw [if_neg (not_lt.mpr h0), if_neg (not_lt.mpr (show i ≤ maxSafeWei from h))]

/-- C4 witness: the bound check fires at `2^53 * 10^18 + 1` and the bridge
runs at `10^18`. -/
theorem c4_witness :
    ((0:ℤ) ≤ 2 ^ 53 * 10 ^ 18 + 1 ∧ 2 ^ 53 * 10 ^ 18 < 2 ^ 53 * 10 ^ 18 + 1 ∧
      WeiToEtherSafe (some (2 ^ 53 * 10 ^ 18 + 1)) = .error .weiTooLarge) :=
  ⟨by decide, by decide,
    (c4_theorem (2 ^ 53 * 10 ^ 18 + 1) (by decide)).1 (by decide)⟩

/-- C2 counterexample: the claim says every float→scaled-integer conversion
rejects NaN without panicking, but `FloatToBigIntBaseX` reaches
`big.Float.SetFloat64` with the NaN (NaN < 0 is false) and that call raises
a runtime ErrNaN fault (modelled as `none`). -/
theorem c2_counterexample : FloatToBigIntBaseX .nan 18 = none := rfl

/-- C2 (amended): `EtherToWei` rejects NaN, +Inf, -Inf and negative input
with an explicit error; `FloatToBigIntBaseX`, and `BigIntBaseX` on a cached
base, reject ±Inf and negative input by returning the zero integer without
fault — but NaN input faults in both (`big.Float.SetFloat64` raises
ErrNaN). -/
theorem c2_theorem (y : ℤ) (c : List ℤ) (hc : c.contains y = true) :
    EtherToWei .nan = .error .etherNaNOrInf
  ∧ EtherToWei .pinf = .error .etherNaNOrInf
  ∧ EtherToWei .ninf = .error .etherNaNOrInf
  ∧ (∀ w : ℚ, w < 0 → EtherToWei (.fin w) = .error .etherNegative)
  ∧ FloatToBigIntBaseX .pinf y = some 0
  ∧ FloatToBigIntBaseX .ninf y = some 0
  ∧ (∀ w : ℚ, w < 0 → FloatToBigIntBaseX (.fin w) y = some 0)
  ∧ FloatToBigIntBaseX .nan y = none
  ∧ BigIntBaseX c .pinf y = some 0
  ∧ BigIntBaseX c .ninf y = some 0
  ∧ (∀ w : ℚ, w < 0 → BigIntBaseX c (.fin w) y = some 0)
  ∧ BigIntBaseX c .nan y = none := by
  have hpinf : FloatToBigIntBaseX .pinf y = some 0 := rfl
  have hninf : FloatToBigIntBaseX .ninf y = some 0 := rfl
  have hnan : FloatToBigIntBaseX .nan y = none := rfl
  have hneg : ∀ w : ℚ, w < 0 → FloatToBigIntBaseX (.fin w) y = some 0 := by
    intro w hw
    simp only [FloatToBigIntBaseX]
    rw [if_pos (by simp [f64lt, hw])]
  refine ⟨rfl, rfl, rfl, fun w hw => ?_, hpinf, hninf, hneg, hnan, ?_, ?_, fun w hw => ?_, ?_⟩
  · simp only [EtherToWei]
    rw [if_pos hw]
  · simp only [BigIntBaseX]
    by_cases hy : y ≤ 14
    · rw [if_pos hy, if_pos hc]
      exact hpinf
    · rw [if_neg hy]
      exact hpinf
  · simp only [BigIntBaseX]
    rw [if_pos (show f64lt .ninf (.fin 0) = true from rfl)]
  · simp only [BigIntBaseX]
    rw [if_pos (by simp [f64lt, hw])]
  · simp only [BigIntBaseX]
    by_cases hy : y ≤ 14
    · rw [if_pos hy, if_pos hc]
      exact hnan
    · rw [if_neg hy]
      exact hnan

/-- C2 witness: the theorem applied at base 18 with the pristine cache. -/
theorem c2_witness :
    (initCache.contains (18:ℤ) = true) ∧
    (EtherToWei .nan = .error .etherNaNOrInf
      ∧ FloatToBigIntBaseX .pinf 18 = some 0
      ∧ FloatToBigIntBaseX .nan 18 = none
      ∧ BigIntBaseX initCache .nan 18 = none) := by
  have h := c2_theorem 18 initCache (by decide)
  exact ⟨by decide, h.1, h.2.2.2.2.1, h.2.2.2.2.2.2.2.1, h.2.2.2.2.2.2.2.2.2.2.2⟩

/-- C1 (amended): for non-negative non-null input, `BigInt2Float` (at any
exponent) and the balanced `WeiToEther` fail exactly when the float64
narrowing of the decimal-float intermediate is classified `Above`, and
return the narrowed double without error on `Exact` or `Below`;
`WeiToEtherSafe` follows the same rule only for inputs at or below
`2^53 * 10^18`, and `WeiToEtherOptimized` only for inputs outside its int64
fast path. -/
theorem c1_theorem (i : ℤ) (h : 0 ≤ i) :
    (∀ d : ℕ, BigInt2Float (some i) d =
        (if (f64ofRat (BigInt2BigFloat (some i) d)).2 = .above then .error .precisionLoss
         else .ok (f64ofRat (BigInt2BigFloat (some i) d)).1))
  ∧ (WeiToEther (some i) =
        (if (f64ofRat (bfQuo (iprec i) (i : ℚ) oneE18)).2 = .above
         then .error .weiPrecisionLoss
         else .ok (f64ofRat (bfQuo (iprec i) (i : ℚ) oneE18)).1))
  ∧ (i ≤ 2 ^ 53 * 10 ^ 18 → WeiToEtherSafe (some i) = WeiToEther (some i))
  ∧ (2 ^ 63 - 1 < i → WeiToEtherOptimized (some i) = WeiToEther (some i)) := by
  refine ⟨fun d => ?_, ?_, fun hb => ?_, fun hf => ?_⟩
  · simp only [BigInt2Float]
    rw [if_neg (not_lt.mpr h)]
  · simp only [WeiToEther]
    rw [if_neg (not_lt.mpr h)]
  · simp only [WeiToEtherSafe, WeiToEther]
    rw [if_neg (not_lt.mpr h), if_neg (not_lt.mpr (show i ≤ maxSafeWei from hb)),
      if_neg (not_lt.mpr h)]
  · simp only [WeiToEtherOptimized, WeiToEther]
    rw [if_neg (not_lt.mpr h),
      if_neg (show ¬(i ≤ 2 ^ 63 - 1 ∧ i ≤ maxSafeInt64) from
        fun hand => absurd hand.1 (not_le.mpr hf)),
      if_neg (not_lt.mpr h)]

/-- C1 witness: the amended rule applied at `i = 10^18`. -/
theorem c1_witness :
    (0 ≤ (10 ^ 18 : ℤ)) ∧
    (WeiToEther (some (10 ^ 18)) =
      (if (f64ofRat (bfQuo (iprec (10 ^ 18)) ((10 ^ 18 : ℤ) : ℚ) oneE18)).2 = .above
       then .error .weiPrecisionLoss
       else .ok (f64ofRat (bfQuo (iprec (10 ^ 18)) ((10 ^ 18 : ℤ) : ℚ) oneE18)).1)) :=
  ⟨by decide, (c1_theorem (10 ^ 18) (by decide)).2.1⟩

/-- C1 counterexample: `WeiToEtherSafe` returns an error at `2^54 * 10^18`
although narrowing the decimal-float intermediate to float64 is classified
`Exact` there — refuting "error exactly when the narrowing rounds up" for
the Safe variant. -/
theorem c1_counterexample :
    WeiToEtherSafe (some (2 ^ 54 * 10 ^ 18)) = .error .weiTooLarge
  ∧ (f64ofRat (bfQuo (iprec (2 ^ 54 * 10 ^ 18)) ((2 ^ 54 * 10 ^ 18 : ℤ) : ℚ) oneE18)).2 =
      .exact := by
  constructor
  · simp only [WeiToEtherSafe]
    rw [if_neg (by decide), if_pos (by decide)]
  · have hb : bitlen (2 ^ 54 * 10 ^ 18) = 114 :=
      bitlen_eval (by norm_num) (by norm_num) (by norm_num)
    have hi : iprec ((2 ^ 54 * 10 ^ 18 : ℤ)) = 114 := by
      rw [iprec_eval (show (2 ^ 54 * 10 ^ 18 : ℤ) = ((2 ^ 54 * 10 ^ 18 : ℕ) : ℤ) from by
        norm_num), hb]
      decide
    have hq : ((2 ^ 54 * 10 ^ 18 : ℤ) : ℚ) / oneE18 = 2 ^ 54 := by
      rw [oneE18]
      norm_num
    have hr : roundP 114 ((2:ℚ) ^ 54) = 2 ^ 54 := by
      have h := @roundP_intCast 114 (2 ^ 54) (by norm_num) (by norm_num) (by norm_num)
      push_cast at h
      exact h
    have hf : f64round ((2:ℚ) ^ 54) = 2 ^ 54 := by
      have h := f64round_two_zpow (show (-1022:ℤ) ≤ 54 from by norm_num)
      rw [show ((2:ℚ) ^ (54:ℤ)) = 2 ^ (54:ℕ) from by norm_num] at h
      exact h
    rw [bfQuo, hi, hq, hr, f64ofRat_eval_exact hf (by norm_num) (by norm_num)]

/-- C3: the Balanced-mode conversion at exponent 18 maps the scaled integer
`10^18` to exactly 1.0 with no error, and maps the scaled integer 1 to the
precision-loss error (the narrowing of the 64-bit intermediate for `10^-18`
rounds up).  Both for the general `BigInt2Float` and the Wei-specific
`WeiToEther`. -/
theorem c3_theorem :
    BigInt2Float (some (10 ^ 18)) 18 = .ok (.fin 1)
  ∧ BigInt2Float (some 1) 18 = .error .precisionLoss
  ∧ WeiToEther (some (10 ^ 18)) = .ok (.fin 1)
  ∧ WeiToEther (some 1) = .error .weiPrecisionLoss := by
  -- precisions: both operands fit in 64 bits
  have hb18 : bitlen (10 ^ 18) = 60 := bitlen_eval (by norm_num) (by norm_num) (by norm_num)
  have hb1 : bitlen 1 = 1 := bitlen_eval (by norm_num) (by norm_num) (by norm_num)
  have hi18 : iprec ((10 : ℤ) ^ 18) = 64 := by
    rw [iprec_eval (show ((10 : ℤ) ^ 18) = ((10 ^ 18 : ℕ) : ℤ) from by norm_num), hb18]
    decide
  have hi1 : iprec (1 : ℤ) = 64 := by
    rw [iprec_eval (show (1 : ℤ) = ((1 : ℕ) : ℤ) from by norm_num), hb1]
    decide
  -- the two decimal-float intermediates
  have hr1 : roundP 64 (1 : ℚ) = 1 := by
    have h := @roundP_intCast 64 1 (by norm_num) (by norm_num) (by norm_num)
    push_cast at h
    exact h
  have hrsmall : roundP 64 ((1 : ℚ) / 10 ^ 18) = 10633823966279326983 / 2 ^ 123 :=
    roundP_eval 64 _ (-60) 10633823966279326983 _ (by norm_num) (by norm_num) (by norm_num)
      (rne_eq_of_near (by norm_num) (by norm_num)) (by norm_num)
  -- their float64 narrowings
  have hf1 : f64round (1 : ℚ) = 1 := by
    have h := @f64round_intCast 1 (by norm_num) (by norm_num)
    push_cast at h
    exact h
  have ha1 : f64ofRat (1 : ℚ) = (.fin 1, .exact) :=
    f64ofRat_eval_exact hf1 (by norm_num) (by norm_num)
  have hfs : f64round (10633823966279326983 / 2 ^ 123 : ℚ) = 5192296858534828 / 2 ^ 112 :=
    f64round_eval _ (-60) 5192296858534828 _ (by norm_num) (by norm_num) (by norm_num)
      (by norm_num) (rne_eq_of_near (by norm_num) (by norm_num)) (by norm_num)
  have has : f64ofRat (10633823966279326983 / 2 ^ 123 : ℚ) =
      (.fin (5192296858534828 / 2 ^ 112), .above) :=
    f64ofRat_eval_above hfs (by norm_num) (by norm_num) (by norm_num)
  -- assemble the four conversions
  have hbb18 : BigInt2BigFloat (some (10 ^ 18)) 18 = 1 := by
    simp only [BigInt2BigFloat, bfQuo]
    rw [hi18, show ((10 ^ 18 : ℤ) : ℚ) / (10 : ℚ) ^ 18 = 1 from by norm_num,
      show max 64 64 = 64 from rfl]
    exact hr1
  have hbb1 : BigInt2BigFloat (some 1) 18 = 10633823966279326983 / 2 ^ 123 := by
    simp only [BigInt2BigFloat, bfQuo]
    rw [hi18, hi1, show ((1 : ℤ) : ℚ) / (10 : ℚ) ^ 18 = 1 / 10 ^ 18 from by norm_num,
      show max 64 64 = 64 from rfl]
    exact hrsmall
  refine ⟨?_, ?_, ?_, ?_⟩
  · simp only [BigInt2Float]
    rw [if_neg (by norm_num), hbb18, ha1]
    rfl
  · simp only [BigInt2Float]
    rw [if_neg (by norm_num), hbb1, has]
    rfl
  · simp only [WeiToEther, bfQuo, oneE18]
    rw [if_neg (by norm_num), hi18,
      show ((10 ^ 18 : ℤ) : ℚ) / 10 ^ 18 = 1 from by norm_num, hr1, ha1]
    rfl
  · simp only [WeiToEther, bfQuo, oneE18]
    rw [if_neg (by norm_num), hi1,
      show ((1 : ℤ) : ℚ) / 10 ^ 18 = 1 / 10 ^ 18 from by norm_num, hrsmall, has]
    rfl

/-- The Go literal `1e-17` denotes the double `6490371073168535 * 2^(-109)`. -/
theorem lit17_eval : lit1e17inv = 6490371073168535 / 2 ^ 109 := by
  rw [lit1e17inv]
  exact f64round_eval _ (-57) 6490371073168535 _ (by norm_num) (by norm_num) (by norm_num)
    (by norm_num) (rne_eq_of_near (by norm_num) (by norm_num)) (by norm_num)

/-- C5: on the int64 fast path of `WeiToEtherOptimized` (every non-negative
input up to 2^63-1), the precision-loss error is returned exactly for the
inputs whose Ether quotient is nonzero and strictly below `10^-17` (i.e.
Wei 1..9); zero and quotients at or above `10^-17` come back without error.
Inputs beyond int64 take the same big.Float route as `WeiToEther`. -/
theorem c5_theorem (w : ℤ) (h0 : 0 ≤ w) :
    (w ≤ 2 ^ 63 - 1 →
      ((WeiToEtherOptimized (some w) = .error .weiPrecisionLoss ↔
          w ≠ 0 ∧ (w : ℚ) / 10 ^ 18 < 1 / 10 ^ 17)
        ∧ ((w = 0 ∨ 1 / 10 ^ 17 ≤ (w : ℚ) / 10 ^ 18) →
            ∃ v : ℚ, WeiToEtherOptimized (some w) = .ok (.fin v))))
  ∧ (2 ^ 63 - 1 < w → WeiToEtherOptimized (some w) = WeiToEther (some w)) := by
  constructor
  · intro hw
    have hfast : WeiToEtherOptimized (some w) =
        (if f64round (f64round (w : ℚ) / 10 ^ 18) ≠ 0 ∧
            f64round (f64round (w : ℚ) / 10 ^ 18) < lit1e17inv
         then .error .weiPrecisionLoss
         else .ok (.fin (f64round (f64round (w : ℚ) / 10 ^ 18)))) := by
      simp only [WeiToEtherOptimized, oneE18]
      rw [if_neg (not_lt.mpr h0), if_pos (show w ≤ 2 ^ 63 - 1 ∧ w ≤ maxSafeInt64 from
        ⟨hw, by simp only [maxSafeInt64]; omega⟩)]
    set r := f64round (f64round (w : ℚ) / 10 ^ 18) with hrdef
    have hkey : (r ≠ 0 ∧ r < lit1e17inv) ↔ (w ≠ 0 ∧ (w : ℚ) / 10 ^ 18 < 1 / 10 ^ 17) := by
      rcases eq_or_lt_of_le h0 with hz | hpos
      · rw [hrdef, ← hz]
        simp [f64round_zero]
      · have h1w : (1:ℤ) ≤ w := hpos
        have hge1 : (1:ℚ) ≤ (w:ℚ) := by exact_mod_cast h1w
        by_cases h9 : w ≤ 9
        · -- Wei 1..9: error, and the quotient is below 10^-17
          have hle9 : (w:ℚ) ≤ 9 := by exact_mod_cast h9
          have hfw : f64round (w:ℚ) = w := f64round_intCast h0 (by omega)
          have hR9 : f64round (9 / 10 ^ 18 : ℚ) = 5841333965851681 / 2 ^ 109 :=
            f64round_eval _ (-57) 5841333965851681 _ (by norm_num) (by norm_num)
              (by norm_num) (by norm_num)
              (rne_eq_of_near (by norm_num) (by norm_num)) (by norm_num)
          have hL1 : f64round (1 / 10 ^ 18 : ℚ) = 5192296858534828 / 2 ^ 112 :=
            f64round_eval _ (-60) 5192296858534828 _ (by norm_num) (by norm_num)
              (by norm_num) (by norm_num)
              (rne_eq_of_near (by norm_num) (by norm_num)) (by norm_num)
          have hrle : r ≤ f64round (9 / 10 ^ 18 : ℚ) := by
            rw [hrdef, hfw]
            exact f64round_mono (by positivity) (by gcongr)
          have hrge : f64round (1 / 10 ^ 18 : ℚ) ≤ r := by
            rw [hrdef, hfw]
            exact f64round_mono (by norm_num) (by gcongr)
          have hrpos : 0 < r := by
            rw [hL1] at hrge
            calc (0:ℚ) < 5192296858534828 / 2 ^ 112 := by norm_num
              _ ≤ r := hrge
          have hrlt : r < lit1e17inv := by
            rw [lit17_eval]
            rw [hR9] at hrle
            calc r ≤ 5841333965851681 / 2 ^ 109 := hrle
              _ < 6490371073168535 / 2 ^ 109 := by norm_num
          have hqlt : (w : ℚ) / 10 ^ 18 < 1 / 10 ^ 17 := by
            calc (w : ℚ) / 10 ^ 18 ≤ 9 / 10 ^ 18 := by gcongr
              _ < 1 / 10 ^ 17 := by norm_num
          exact iff_of_true ⟨hrpos.ne', hrlt⟩ ⟨by omega, hqlt⟩
        · -- Wei ≥ 10: no error, quotient at least 10^-17
          have h10 : (10:ℤ) ≤ w := by omega
          have h10q : (10:ℚ) ≤ (w:ℚ) := by exact_mod_cast h10
          have hf10 : f64round (10:ℚ) = 10 := by
            have h := @f64round_intCast 10 (by norm_num) (by norm_num)
            push_cast at h
            exact h
          have hwge : (10:ℚ) ≤ f64round (w:ℚ) := by
            have h := f64round_mono (show (0:ℚ) ≤ 10 from by norm_num) h10q
            rw [hf10] at h
            exact h
          have hge17 : (1:ℚ) / 10 ^ 17 ≤ f64round (w:ℚ) / 10 ^ 18 := by
            rw [show (1:ℚ) / 10 ^ 17 = 10 / 10 ^ 18 from by norm_num]
            gcongr
          have hrge : lit1e17inv ≤ r := by
            rw [hrdef, lit1e17inv]
            exact f64round_mono (by norm_num) hge17
          have hnotq : ¬ ((w:ℚ) / 10 ^ 18 < 1 / 10 ^ 17) := by
            apply not_lt.mpr
            rw [show (1:ℚ) / 10 ^ 17 = 10 / 10 ^ 18 from by norm_num]
            gcongr
          exact iff_of_false (fun hc => absurd hc.2 (not_lt.mpr hrge))
            (fun hc => absurd hc.2 hnotq)
    rw [hfast]
    constructor
    · by_cases hcond : (r ≠ 0 ∧ r < lit1e17inv)
      · rw [if_pos hcond]
        exact ⟨fun _ => hkey.mp hcond, fun _ => rfl⟩
      · rw [if_neg hcond]
        constructor
        · intro hok
          exact absurd hok (by simp)
        · intro hR
          exact absurd (hkey.mpr hR) hcond
    · intro hor
      by_cases hcond : (r ≠ 0 ∧ r < lit1e17inv)
      · exfalso
        have hR := hkey.mp hcond
        rcases hor with h1 | h1
        · exact hR.1 h1
        · exact absurd hR.2 (not_lt.mpr h1)
      · rw [if_neg hcond]
        exact ⟨r, rfl⟩
  · intro hf
    simp only [WeiToEtherOptimized, WeiToEther]
    rw [if_neg (not_lt.mpr h0),
      if_neg (show ¬(w ≤ 2 ^ 63 - 1 ∧ w ≤ maxSafeInt64) from
        fun hand => absurd hand.1 (not_le.mpr hf)),
      if_neg (not_lt.mpr h0)]

/-- C5 witness: the fast-path rule applied at `w = 10^18` (one Ether). -/
theorem c5_witness :
    (0 ≤ (10 ^ 18 : ℤ)) ∧ ((10 ^ 18 : ℤ) ≤ 2 ^ 63 - 1) ∧
    (WeiToEtherOptimized (some (10 ^ 18)) = .error .weiPrecisionLoss ↔
      (10 ^ 18 : ℤ) ≠ 0 ∧ ((10 ^ 18 : ℤ) : ℚ) / 10 ^ 18 < 1 / 10 ^ 17) :=
  ⟨by decide, by decide, ((c5_theorem (10 ^ 18) (by decide)).1 (by decide)).1⟩

/-- C7 (intent): on the fast-path domain of `BigIntBaseX` (base at most 14,
non-negative float below the int64 overflow guard), the machine fast path
returns the same integer as the arbitrary-precision `FloatToBigIntBaseX` —
provided the base is present in `pow10Cache`.  The code slips on an uncached
base: the guard dereferences the nil cache entry, so `BigIntBaseX(1.0, 6)`
faults on a pristine cache while `FloatToBigIntBaseX(1.0, 6)` returns
1000000. -/
theorem c7_theorem :
    (BigIntBaseX initCache (.fin 1) 6 = none ∧
      FloatToBigIntBaseX (.fin 1) 6 = some 1000000)
  ∧ (∀ (c : List ℤ) (f : ℚ) (y : ℤ), c.contains y = true → isRep f → 0 ≤ f → y ≤ 14 →
      f < f64round ((2 ^ 63 : ℚ) / f64round ((pow10 y : ℤ) : ℚ)) →
      BigIntBaseX c (.fin f) y = FloatToBigIntBaseX (.fin f) y) := by
  constructor
  · constructor
    · simp only [BigIntBaseX]
      rw [if_neg (by decide), if_pos (by decide), if_neg (by decide)]
    · have hp6 : ((pow10 6 : ℤ) : ℚ) = 1000000 := by norm_num [pow10] <;> decide
      have hmul : bfMul 53 (1 : ℚ) 1000000 = 1000000 := by
        rw [bfMul, one_mul]
        have h := @roundP_intCast 53 1000000 (by norm_num) (by norm_num) (by norm_num)
        push_cast at h
        exact h
      have htr : bfTruncInt (1000000 : ℚ) = 1000000 := by
        have h := bfTruncInt_intCast 1000000
        push_cast at h
        exact h
      simp only [FloatToBigIntBaseX]
      rw [if_neg (by decide), hp6, hmul, htr]
  · intro c f y hc hrep hf hy hguard
    have hslow : FloatToBigIntBaseX (.fin f) y =
        some (bfTruncInt (bfMul 53 f ((pow10 y : ℤ) : ℚ))) := by
      simp only [FloatToBigIntBaseX]
      rw [if_neg (by simp [f64lt]; exact hf)]
    simp only [BigIntBaseX]
    rw [if_neg (by simp [f64lt]; exact hf), if_pos hy, if_pos hc, if_pos hguard, hslow]
    rcases le_or_lt y 0 with hy0 | hy1
    · -- bases at or below zero: the scale factor is 1
      have hk : ((pow10 y : ℤ) : ℚ) = 1 := by rw [pow10, if_pos hy0]; norm_num
      have hf1 : f64round (1 : ℚ) = 1 := by
        have h := @f64round_intCast 1 (by norm_num) (by norm_num)
        push_cast at h
        exact h
      have hf63 : f64round ((2:ℚ) ^ (63:ℕ)) = 2 ^ (63:ℕ) := by
        have h := f64round_two_zpow (show (-1022 : ℤ) ≤ 63 from by norm_num)
        rw [show ((2:ℚ) ^ (63:ℤ)) = 2 ^ (63:ℕ) from by norm_num] at h
        exact h
      rw [hk, hf1, div_one, show ((2:ℚ) ^ 63) = 2 ^ (63:ℕ) from rfl, hf63] at hguard
      rw [hk, hf1, mul_one, show f64round f = f from hrep]
      simp only [bfMul, mul_one]
      rw [roundP53_of_isRep hf hrep]
      rw [i64ofF64_of_range hf hguard]
    · -- bases 1..14
      interval_cases y
      · -- y = 1: bound (m+1)*2^t with m = 7205759403792793, t = 7
        have hk : ((pow10 1 : ℤ) : ℚ) = 10 := by norm_num [pow10] <;> decide
        have hfk : f64round (10 : ℚ) = 10 := by
          have h := @f64round_intCast 10 (by norm_num) (by norm_num)
          push_cast at h
          exact h
        have hB : f64round ((2 ^ 63 : ℚ) / 10) = ((7205759403792793 : ℚ) + 1) * 2 ^ ((7) : ℤ) :=
          f64round_eval _ 59 7205759403792794 _ (by norm_num) (by norm_num) (by norm_num) (by norm_num)
            (rne_eq_of_near (by norm_num) (by norm_num)) (by norm_num)
        rw [hk, hfk, hB] at hguard
        rw [hk, hfk]
        simp only [bfMul]
        exact congrArg some (c7_core hrep hf (by norm_num) (by norm_num) (by norm_num)
          (by norm_num) (by norm_num) hguard)
      · -- y = 2: bound (m+1)*2^t with m = 5764607523034234, t = 4
        have hk : ((pow10 2 : ℤ) : ℚ) = 100 := by norm_num [pow10] <;> decide
        have hfk : f64round (100 : ℚ) = 100 := by
          have h := @f64round_intCast 100 (by norm_num) (by norm_num)
          push_cast at h
          exact h
        have hB : f64round ((2 ^ 63 : ℚ) / 100) = ((5764607523034234 : ℚ) + 1) * 2 ^ ((4) : ℤ) :=
          f64round_eval _ 56 5764607523034235 _ (by norm_num) (by norm_num) (by norm_num) (by norm_num)
            (rne_eq_of_near (by norm_num) (by norm_num)) (by norm_num)
        rw [hk, hfk, hB] at hguard
        rw [hk, hfk]
        simp only [bfMul]
        exact congrArg some (c7_core hrep hf (by norm_num) (by norm_num) (by norm_num)
          (by norm_num) (by norm_num) hguard)
      · -- y = 3: bound (m+1)*2^t with m = 4611686018427387, t = 1
        have hk : ((pow10 3 : ℤ) : ℚ) = 1000 := by norm_num [pow10] <;> decide
        have hfk : f64round (1000 : ℚ) = 1000 := by
          have h := @f64round_intCast 1000 (by norm_num) (by norm_num)
          push_cast at h
          exact h
        have hB : f64round ((2 ^ 63 : ℚ) / 1000) = ((4611686018427387 : ℚ) + 1) * 2 ^ ((1) : ℤ) :=
          f64round_eval _ 53 4611686018427388 _ (by norm_num) (by norm_num) (by norm_num) (by norm_num)
            (rne_eq_of_near (by norm_num) (by norm_num)) (by norm_num)
        rw [hk, hfk, hB] at hguard
        rw [hk, hfk]
        simp only [bfMul]
        exact congrArg some (c7_core hrep hf (by norm_num) (by norm_num) (by norm_num)
          (by norm_num) (by norm_num) hguard)
      · -- y = 4: bound (m+1)*2^t with m = 7378697629483820, t = -3
        have hk : ((pow10 4 : ℤ) : ℚ) = 10000 := by norm_num [pow10] <;> decide
        have hfk : f64round (10000 : ℚ) = 10000 := by
          have h := @f64round_intCast 10000 (by norm_num) (by norm_num)
          push_cast at h
          exact h
        have hB : f64round ((2 ^ 63 : ℚ) / 10000) = ((7378697629483820 : ℚ) + 1) * 2 ^ ((-3) : ℤ) :=
          f64round_eval _ 49 7378697629483821 _ (by norm_num) (by norm_num) (by norm_num) (by norm_num)
            (rne_eq_of_near (by norm_num) (by norm_num)) (by norm_num)
        rw [hk, hfk, hB] at hguard
        rw [hk, hfk]
        simp only [bfMul]
        exact congrArg some (c7_core hrep hf (by norm_num) (by norm_num) (by norm_num)
          (by norm_num) (by norm_num) hguard)
      · -- y = 5: bound (m+1)*2^t with m = 5902958103587056, t = -6
        have hk : ((pow10 5 : ℤ) : ℚ) = 100000 := by norm_num [pow10] <;> decide
        have hfk : f64round (100000 : ℚ) = 100000 := by
          have h := @f64round_intCast 100000 (by norm_num) (by norm_num)
          push_cast at h
          exact h
        have hB : f64round ((2 ^ 63 : ℚ) / 100000) = ((5902958103587056 : ℚ) + 1) * 2 ^ ((-6) : ℤ) :=
          f64round_eval _ 46 5902958103587057 _ (by norm_num) (by norm_num) (by norm_num) (by norm_num)
            (rne_eq_of_near (by norm_num) (by norm_num)) (by norm_num)
        rw [hk, hfk, hB] at hguard
        rw [hk, hfk]
        simp only [bfMul]
        exact congrArg some (c7_core hrep hf (by norm_num) (by norm_num) (by norm_num)
          (by norm_num) (by norm_num) hguard)
      · -- y = 6: bound (m+1)*2^t with m = 4722366482869644, t = -9
        have hk : ((pow10 6 : ℤ) : ℚ) = 1000000 := by norm_num [pow10] <;> decide
        have hfk : f64round (1000000 : ℚ) = 1000000 := by
          have h := @f64round_intCast 1000000 (by norm_num) (by norm_num)
          push_cast at h
          exact h
        have hB : f64round ((2 ^ 63 : ℚ) / 1000000) = ((4722366482869644 : ℚ) + 1) * 2 ^ ((-9) : ℤ) :=
          f64round_eval _ 43 4722366482869645 _ (by norm_num) (by norm_num) (by norm_num) (by norm_num)
            (rne_eq_of_near (by norm_num) (by norm_num)) (by norm_num)
        rw [hk, hfk, hB] at hguard
        rw [hk, hfk]
        simp only [bfMul]
        exact congrArg some (c7_core hrep hf (by norm_num) (by norm_num) (by norm_num)
          (by norm_num) (by norm_num) hguard)
      · -- y = 7: bound (m+1)*2^t with m = 7555786372591431, t = -13
        have hk : ((pow10 7 : ℤ) : ℚ) = 10000000 := by norm_num [pow10] <;> decide
        have hfk : f64round (10000000 : ℚ) = 10000000 := by
          have h := @f64round_intCast 10000000 (by norm_num) (by norm_num)
          push_cast at h
          exact h
        have hB : f64round ((2 ^ 63 : ℚ) / 10000000) = ((7555786372591431 : ℚ) + 1) * 2 ^ ((-13) : ℤ) :=
          f64round_eval _ 39 7555786372591432 _ (by norm_num) (by norm_num) (by norm_num) (by norm_num)
            (rne_eq_of_near (by norm_num) (by norm_num)) (by norm_num)
        rw [hk, hfk, hB] at hguard
        rw [hk, hfk]
        simp only [bfMul]
        exact congrArg some (c7_core hrep hf (by norm_num) (by norm_num) (by norm_num)
          (by norm_num) (by norm_num) hguard)
      · -- y = 8: bound (m+1)*2^t with m = 6044629098073145, t = -16
        have hk : ((pow10 8 : ℤ) : ℚ) = 100000000 := by norm_num [pow10] <;> decide
        have hfk : f64round (100000000 : ℚ) = 100000000 := by
          have h := @f64round_intCast 100000000 (by norm_num) (by norm_num)
          push_cast at h
          exact h
        have hB : f64round ((2 ^ 63 : ℚ) / 100000000) = ((6044629098073145 : ℚ) + 1) * 2 ^ ((-16) : ℤ) :=
          f64round_eval _ 36 6044629098073146 _ (by norm_num) (by norm_num) (by norm_num) (by norm_num)
            (rne_eq_of_near (by norm_num) (by norm_num)) (by norm_num)
        rw [hk, hfk, hB] at hguard
        rw [hk, hfk]
        simp only [bfMul]
        exact congrArg some (c7_core hrep hf (by norm_num) (by norm_num) (by norm_num)
          (by norm_num) (by norm_num) hguard)
      · -- y = 9: bound (m+1)*2^t with m = 4835703278458516, t = -19
        have hk : ((pow10 9 : ℤ) : ℚ) = 1000000000 := by norm_num [pow10] <;> decide
        have hfk : f64round (1000000000 : ℚ) = 1000000000 := by
          have h := @f64round_intCast 1000000000 (by norm_num) (by norm_num)
          push_cast at h
          exact h
        have hB : f64round ((2 ^ 63 : ℚ) / 1000000000) = ((4835703278458516 : ℚ) + 1) * 2 ^ ((-19) : ℤ) :=
          f64round_eval _ 33 4835703278458517 _ (by norm_num) (by norm_num) (by norm_num) (by norm_num)
            (rne_eq_of_near (by norm_num) (by norm_num)) (by norm_num)
        rw [hk, hfk, hB] at hguard
        rw [hk, hfk]
        simp only [bfMul]
        exact congrArg some (c7_core hrep hf (by norm_num) (by norm_num) (by norm_num)
          (by norm_num) (by norm_num) hguard)
      · -- y = 10: bound (m+1)*2^t with m = 7737125245533626, t = -23
        have hk : ((pow10 10 : ℤ) : ℚ) = 10000000000 := by norm_num [pow10] <;> decide
        have hfk : f64round (10000000000 : ℚ) = 10000000000 := by
          have h := @f64round_intCast 10000000000 (by norm_num) (by norm_num)
          push_cast at h
          exact h
        have hB : f64round ((2 ^ 63 : ℚ) / 10000000000) = ((7737125245533626 : ℚ) + 1) * 2 ^ ((-23) : ℤ) :=
          f64round_eval _ 29 7737125245533627 _ (by norm_num) (by norm_num) (by norm_num) (by norm_num)
            (rne_eq_of_near (by norm_num) (by norm_num)) (by norm_num)
        rw [hk, hfk, hB] at hguard
        rw [hk, hfk]
        simp only [bfMul]
        exact congrArg some (c7_core hrep hf (by norm_num) (by norm_num) (by norm_num)
          (by norm_num) (by norm_num) hguard)
      · -- y = 11: bound (m+1)*2^t with m = 6189700196426900, t = -26
        have hk : ((pow10 11 : ℤ) : ℚ) = 100000000000 := by norm_num [pow10] <;> decide
        have hfk : f64round (100000000000 : ℚ) = 100000000000 := by
          have h := @f64round_intCast 100000000000 (by norm_num) (by norm_num)
          push_cast at h
          exact h
        have hB : f64round ((2 ^ 63 : ℚ) / 100000000000) = ((6189700196426900 : ℚ) + 1) * 2 ^ ((-26) : ℤ) :=
          f64round_eval _ 26 6189700196426901 _ (by norm_num) (by norm_num) (by norm_num) (by norm_num)
            (rne_eq_of_near (by norm_num) (by norm_num)) (by norm_num)
        rw [hk, hfk, hB] at hguard
        rw [hk, hfk]
        simp only [bfMul]
        exact congrArg some (c7_core hrep hf (by norm_num) (by norm_num) (by norm_num)
          (by norm_num) (by norm_num) hguard)
      · -- y = 12: bound (m+1)*2^t with m = 4951760157141520, t = -29
        have hk : ((pow10 12 : ℤ) : ℚ) = 1000000000000 := by norm_num [pow10] <;> decide
        have hfk : f64round (1000000000000 : ℚ) = 1000000000000 := by
          have h := @f64round_intCast 1000000000000 (by norm_num) (by norm_num)
          push_cast at h
          exact h
        have hB : f64round ((2 ^ 63 : ℚ) / 1000000000000) = ((4951760157141520 : ℚ) + 1) * 2 ^ ((-29) : ℤ) :=
          f64round_eval _ 23 4951760157141521 _ (by norm_num) (by norm_num) (by norm_num) (by norm_num)
            (rne_eq_of_near (by norm_num) (by norm_num)) (by norm_num)
        rw [hk, hfk, hB] at hguard
        rw [hk, hfk]
        simp only [bfMul]
        exact congrArg some (c7_core hrep hf (by norm_num) (by norm_num) (by norm_num)
          (by norm_num) (by norm_num) hguard)
      · -- y = 13: bound (m+1)*2^t with m = 7922816251426433, t = -33
        have hk : ((pow10 13 : ℤ) : ℚ) = 10000000000000 := by norm_num [pow10] <;> decide
        have hfk : f64round (10000000000000 : ℚ) = 10000000000000 := by
          have h := @f64round_intCast 10000000000000 (by norm_num) (by norm_num)
          push_cast at h
          exact h
        have hB : f64round ((2 ^ 63 : ℚ) / 10000000000000) = ((7922816251426433 : ℚ) + 1) * 2 ^ ((-33) : ℤ) :=
          f64round_eval _ 19 7922816251426434 _ (by norm_num) (by norm_num) (by norm_num) (by norm_num)
            (rne_eq_of_near (by norm_num) (by norm_num)) (by norm_num)
        rw [hk, hfk, hB] at hguard
        rw [hk, hfk]
        simp only [bfMul]
        exact congrArg some (c7_core hrep hf (by norm_num) (by norm_num) (by norm_num)
          (by norm_num) (by norm_num) hguard)
      · -- y = 14: bound (m+1)*2^t with m = 6338253001141146, t = -36
        have hk : ((pow10 14 : ℤ) : ℚ) = 100000000000000 := by norm_num [pow10] <;> decide
        have hfk : f64round (100000000000000 : ℚ) = 100000000000000 := by
          have h := @f64round_intCast 100000000000000 (by norm_num) (by norm_num)
          push_cast at h
          exact h
        have hB : f64round ((2 ^ 63 : ℚ) / 100000000000000) = ((6338253001141146 : ℚ) + 1) * 2 ^ ((-36) : ℤ) :=
          f64round_eval _ 16 6338253001141147 _ (by norm_num) (by norm_num) (by norm_num) (by norm_num)
            (rne_eq_of_near (by norm_num) (by norm_num)) (by norm_num)
        rw [hk, hfk, hB] at hguard
        rw [hk, hfk]
        simp only [bfMul]
        exact congrArg some (c7_core hrep hf (by norm_num) (by norm_num) (by norm_num)
          (by norm_num) (by norm_num) hguard)

/-- C7 witness: the cached-base agreement applied at base 14 with `f = 1`
on the pristine cache. -/
theorem c7_witness :
    (initCache.contains (14:ℤ) = true) ∧ (isRep (1:ℚ)) ∧ ((0:ℚ) ≤ 1) ∧ ((14:ℤ) ≤ 14) ∧
    ((1:ℚ) < f64round ((2 ^ 63 : ℚ) / f64round ((pow10 14 : ℤ) : ℚ))) ∧
    BigIntBaseX initCache (.fin 1) 14 = FloatToBigIntBaseX (.fin 1) 14 := by
  have hrep1 : isRep (1:ℚ) := by
    have h := @f64round_intCast 1 (by norm_num) (by norm_num)
    rw [isRep]
    push_cast at h
    exact h
  have hk : ((pow10 14 : ℤ) : ℚ) = 100000000000000 := by norm_num [pow10] <;> decide
  have hfk : f64round (100000000000000 : ℚ) = 100000000000000 := by
    have h := @f64round_intCast 100000000000000 (by norm_num) (by norm_num)
    push_cast at h
    exact h
  have hB : f64round ((2 ^ 63 : ℚ) / 100000000000000) =
      ((6338253001141146 : ℚ) + 1) * 2 ^ ((-36) : ℤ) :=
    f64round_eval _ 16 6338253001141147 _ (by norm_num) (by norm_num) (by norm_num)
      (by norm_num) (rne_eq_of_near (by norm_num) (by norm_num)) (by norm_num)
  have hguard : (1:ℚ) < f64round ((2 ^ 63 : ℚ) / f64round ((pow10 14 : ℤ) : ℚ)) := by
    rw [hk, hfk, hB]
    norm_num
  exact ⟨by decide, hrep1, by norm_num, by norm_num, hguard,
    c7_theorem.2 initCache 1 14 (by decide) hrep1 (by norm_num) (by norm_num) hguard⟩

end Safem
